import Mathlib

/-!
Verification of the BirdSong visualizer's audio analysis pipeline.

The TypeScript source is shallowly embedded over exact rationals (`ℚ`).
JavaScript numbers are IEEE doubles; the transcendental library calls the
pipeline makes (`Math.sqrt`, `Math.cos`, `Math.sin`, `Math.log`, `Math.exp`,
`Math.log2`, `Math.log10`, `Math.pow(10, ·)`) are modelled by an abstract
parameter pack `FloatOps`, so the theorems below quantify over an arbitrary
interpretation of those functions unless a property genuinely depends on a
concrete one, in which case the concrete interpretation used is justified at
the theorem.  All cosine/sine call sites in the source take an argument of the
form `π·q` with `q` rational, so the pack carries `cosPi`/`sinPi`, where
`cosPi q` stands for `cos (π·q)`.

Code structure mirrored here:
* namespace `Client`  — `client/src/lib/audio-features.ts` and
  `client/src/lib/pca.ts`;
* namespace `Visual`  — the visual attribute mapper's normalization helper
  (`norm`);
* namespace `ServerA` — the zero-crossing-rate/DFT server pipeline
  (frame extraction, segmentation, k-NN graph, visualization mapping, and the
  core of `analyzeAudioFile` after PCM extraction);
* namespace `ServerB` — the MFCC+PCA server pipeline (`applyPCA` and its
  fallback projection).
-/

/-- Abstract interpretation of the JavaScript float library functions used by
the pipeline.  `cosPi q` models `Math.cos (π·q)`, `sinPi q` models
`Math.sin (π·q)`, and `exp10 q` models `Math.pow (10, q)`. -/
structure FloatOps where
  sqrt : ℚ → ℚ
  cosPi : ℚ → ℚ
  sinPi : ℚ → ℚ
  log : ℚ → ℚ
  exp : ℚ → ℚ
  log2 : ℚ → ℚ
  log10 : ℚ → ℚ
  exp10 : ℚ → ℚ

/-- A trivial interpretation of the float library, used to instantiate
theorems whose statements do not depend on the library functions. -/
def dummyOps : FloatOps :=
  { sqrt := fun _ => 0
    cosPi := fun _ => 0
    sinPi := fun _ => 0
    log := fun _ => 0
    exp := fun _ => 0
    log2 := fun _ => 0
    log10 := fun _ => 0
    exp10 := fun _ => 0 }

/-- Interpretation whose `sqrt` is the identity.  Used for the k-NN graph
counterexample: there `sqrt` is applied to squared Euclidean distances and its
result is only ever compared for order, and on the concrete input of that
counterexample all squared distances are distinct, so any strictly monotone
interpretation of `sqrt` — the real square root in particular, and the
identity — produces the same comparisons and hence the same edge list. -/
def idSqrtOps : FloatOps := { dummyOps with sqrt := fun q => q }

/-- Sum of `f` over `List.range n` agrees with the `Finset.range` sum. -/
theorem listRange_map_sum (f : ℕ → ℚ) (n : ℕ) :
    ((List.range n).map f).sum = ∑ i in Finset.range n, f i := by
  induction n with
  | zero => simp
  | succ n ih => simp [List.range_succ, Finset.sum_range_succ, ih]

/-- The JavaScript idiom `((a % 12) + 12) % 12` (with `%` the truncating
remainder) lands in `[0, 12)`. -/
theorem tmod_idiom_bounds (a : ℤ) :
    0 ≤ (a.tmod 12 + 12).tmod 12 ∧ (a.tmod 12 + 12).tmod 12 < 12 := by
  have h1 : -12 < a.tmod 12 ∧ a.tmod 12 < 12 := by
    cases a with
    | ofNat n =>
      simp only [Int.tmod, Int.ofNat_eq_coe]
      omega
    | negSucc n =>
      simp only [Int.tmod, Int.ofNat_eq_coe]
      omega
  have h0 : 0 ≤ a.tmod 12 + 12 := by omega
  have h2 := Int.tmod_eq_emod h0 (by norm_num : (0:ℤ) ≤ 12)
  rw [h2]
  omega

namespace Client

/-! ### Chroma pitch-class profile — `computeChroma` in `audio-features.ts` -/

/-- Frequency of FFT bin `k`: `k * sampleRate / fftSize`. -/
def binFreq (fftSize : ℕ) (sampleRate : ℚ) (k : ℕ) : ℚ :=
  k * sampleRate / fftSize

/-- `((Math.round(12·log2(freq/440)) % 12) + 12) % 12`.  JavaScript `%` is the
truncating remainder (`Int.tmod`); `Math.round` rounds half towards `+∞`,
which is Mathlib's `round`. -/
def pitchClass (ops : FloatOps) (freq : ℚ) : ℕ :=
  (((round (12 * ops.log2 (freq / 440)) : ℤ).tmod 12 + 12).tmod 12).toNat

theorem pitchClass_lt_12 (ops : FloatOps) (freq : ℚ) : pitchClass ops freq < 12 := by
  have h := tmod_idiom_bounds (round (12 * ops.log2 (freq / 440)) : ℤ)
  unfold pitchClass
  omega

/-- The bin indices scanned by the chroma loop: `k = 1, …, magnitude.length − 1`
(the loop is `for (k = 1; k < halfN; k++)` with `halfN = magnitude.length`). -/
def chromaBins (magLen : ℕ) : List ℕ := List.range' 1 (magLen - 1)

theorem mem_chromaBins {k magLen : ℕ} : k ∈ chromaBins magLen ↔ 1 ≤ k ∧ k < magLen := by
  unfold chromaBins
  rw [List.mem_range']
  constructor
  · rintro ⟨i, hi, rfl⟩
    omega
  · rintro ⟨h1, h2⟩
    exact ⟨k - 1, by omega, by omega⟩

/-- One step of the chroma accumulation loop body. -/
def chromaStep (ops : FloatOps) (mag : List ℚ) (fftSize : ℕ) (sr : ℚ)
    (c : ℕ → ℚ) (k : ℕ) : ℕ → ℚ :=
  let freq := binFreq fftSize sr k
  if freq < 30 ∨ freq > 5000 then c
  else Function.update c (pitchClass ops freq)
    (c (pitchClass ops freq) + mag.getD k 0 ^ 2)

/-- The chroma accumulator after the bin loop (the 12-entry `chroma` array
before normalization). -/
def chromaAccum (ops : FloatOps) (mag : List ℚ) (fftSize : ℕ) (sr : ℚ) : ℕ → ℚ :=
  (chromaBins mag.length).foldl (chromaStep ops mag fftSize sr) (fun _ => 0)

/-- The code's `sum` variable: total accumulated in-range energy. -/
def chromaTotal (ops : FloatOps) (mag : List ℚ) (fftSize : ℕ) (sr : ℚ) : ℚ :=
  ∑ i in Finset.range 12, chromaAccum ops mag fftSize sr i

/-- `computeChroma`: accumulate squared magnitudes per pitch class over bins
whose frequency lies in `[30, 5000]`, then L1-normalize if the total is
positive. -/
def computeChroma (ops : FloatOps) (mag : List ℚ) (fftSize : ℕ) (sr : ℚ) : List ℚ :=
  let c := chromaAccum ops mag fftSize sr
  let s := chromaTotal ops mag fftSize sr
  if s > 0 then (List.range 12).map (fun i => c i / s)
  else (List.range 12).map c

/-- Per-bin contribution to the total accumulated energy. -/
def chromaContrib (mag : List ℚ) (fftSize : ℕ) (sr : ℚ) (k : ℕ) : ℚ :=
  if binFreq fftSize sr k < 30 ∨ binFreq fftSize sr k > 5000 then 0
  else mag.getD k 0 ^ 2

theorem chromaStep_sum (ops : FloatOps) (mag : List ℚ) (fftSize : ℕ) (sr : ℚ)
    (c : ℕ → ℚ) (k : ℕ) :
    ∑ i in Finset.range 12, chromaStep ops mag fftSize sr c k i
      = (∑ i in Finset.range 12, c i) + chromaContrib mag fftSize sr k := by
  unfold chromaStep chromaContrib
  by_cases h : binFreq fftSize sr k < 30 ∨ binFreq fftSize sr k > 5000
  · simp [h]
  · have hpc : pitchClass ops (binFreq fftSize sr k) ∈ Finset.range 12 :=
      Finset.mem_range.mpr (pitchClass_lt_12 ops _)
    simp only [h, if_false]
    rw [Finset.sum_update_of_mem hpc]
    rw [← Finset.sum_erase_add _ _ hpc, Finset.erase_eq]
    ring

theorem chromaFold_sum (ops : FloatOps) (mag : List ℚ) (fftSize : ℕ) (sr : ℚ)
    (ks : List ℕ) (c : ℕ → ℚ) :
    ∑ i in Finset.range 12, ks.foldl (chromaStep ops mag fftSize sr) c i
      = (∑ i in Finset.range 12, c i) + (ks.map (chromaContrib mag fftSize sr)).sum := by
  induction ks generalizing c with
  | nil => simp
  | cons k ks ih =>
    simp only [List.foldl_cons, List.map_cons, List.sum_cons]
    rw [ih, chromaStep_sum]
    ring

theorem chromaStep_nonneg (ops : FloatOps) (mag : List ℚ) (fftSize : ℕ) (sr : ℚ)
    (c : ℕ → ℚ) (k : ℕ) (hc : ∀ i, 0 ≤ c i) :
    ∀ i, 0 ≤ chromaStep ops mag fftSize sr c k i := by
  intro i
  unfold chromaStep
  by_cases h : binFreq fftSize sr k < 30 ∨ binFreq fftSize sr k > 5000
  · simp only [h, if_true]
    exact hc i
  · simp only [h, if_false, Function.update_apply]
    by_cases hi : i = pitchClass ops (binFreq fftSize sr k)
    · simp only [hi, if_true]
      have := sq_nonneg (mag.getD k 0)
      have := hc (pitchClass ops (binFreq fftSize sr k))
      nlinarith [sq_nonneg (mag.getD k 0)]
    · simp only [hi, if_false]
      exact hc i

theorem chromaFold_nonneg (ops : FloatOps) (mag : List ℚ) (fftSize : ℕ) (sr : ℚ)
    (ks : List ℕ) (c : ℕ → ℚ) (hc : ∀ i, 0 ≤ c i) :
    ∀ i, 0 ≤ ks.foldl (chromaStep ops mag fftSize sr) c i := by
  induction ks generalizing c with
  | nil => exact hc
  | cons k ks ih =>
    simp only [List.foldl_cons]
    exact ih _ (chromaStep_nonneg ops mag fftSize sr c k hc)

theorem chromaAccum_nonneg (ops : FloatOps) (mag : List ℚ) (fftSize : ℕ) (sr : ℚ) :
    ∀ i, 0 ≤ chromaAccum ops mag fftSize sr i :=
  chromaFold_nonneg ops mag fftSize sr _ _ (fun _ => le_refl 0)

theorem chromaTotal_eq_contribSum (ops : FloatOps) (mag : List ℚ) (fftSize : ℕ) (sr : ℚ) :
    chromaTotal ops mag fftSize sr
      = ((chromaBins mag.length).map (chromaContrib mag fftSize sr)).sum := by
  unfold chromaTotal chromaAccum
  rw [chromaFold_sum]
  simp

theorem chromaContrib_nonneg (mag : List ℚ) (fftSize : ℕ) (sr : ℚ) (k : ℕ) :
    0 ≤ chromaContrib mag fftSize sr k := by
  unfold chromaContrib
  by_cases h : binFreq fftSize sr k < 30 ∨ binFreq fftSize sr k > 5000
  · simp [h]
  · simp only [h, if_false]
    exact sq_nonneg _

end Client

namespace ServerA

/-! ### `normalizeValue` from the ZCR/DFT server pipeline -/

/-- `normalizeValue`: midpoint `0.5` on a zero-width range, otherwise the
range-normalized value clamped to `[0, 1]`. -/
def normalizeValue (value mn mx : ℚ) : ℚ :=
  if mx = mn then 1/2
  else max 0 (min 1 ((value - mn) / (mx - mn)))

end ServerA

namespace Visual

/-! ### `norm` from the visual attribute mapper -/

/-- `norm`: midpoint `0.5` when `max ≤ min`, otherwise the range-normalized
value clamped to `[0, 1]`. -/
def norm (value mn mx : ℚ) : ℚ :=
  if mx ≤ mn then 1/2
  else max 0 (min 1 ((value - mn) / (mx - mn)))

end Visual

namespace Client

/-! ### YIN pitch detection — `yinPitchDetect` in `audio-features.ts` -/

/-- The half-window length `Math.floor(frameSize / 2)`. -/
def yinHalfW (frameSize : ℕ) : ℕ := frameSize / 2

/-- `available = min(start + frameSize, samples.length) - start` (as an
integer, as in the source, so that a start beyond the buffer gives a negative
value). -/
def yinAvailable (numSamples start frameSize : ℕ) : ℤ :=
  (min (start + frameSize) numSamples : ℤ) - start

/-- Step 1, the difference function `d(τ) = Σ_{j<halfW} (x[start+j] − x[start+j+τ])²`. -/
def yinDiff (samples : List ℚ) (start halfW tau : ℕ) : ℚ :=
  ((List.range halfW).map (fun j =>
    (samples.getD (start + j) 0 - samples.getD (start + j + tau) 0) ^ 2)).sum

/-- Step 2, the cumulative-mean-normalized difference: `d'(0) = 1`, and for
`τ ≥ 1`, `d'(τ) = d(τ)·τ / Σ_{u=1}^{τ} d(u)` when that running sum is
positive, else `1`. -/
def yinCmndf (samples : List ℚ) (start halfW : ℕ) (tau : ℕ) : ℚ :=
  if tau = 0 then 1
  else
    let rs := ((List.range' 1 tau).map (yinDiff samples start halfW)).sum
    if rs > 0 then yinDiff samples start halfW tau * tau / rs else 1

/-- `minPeriod = Math.floor(sampleRate / 2000)`. -/
def yinMinPeriod (sr : ℚ) : ℤ := ⌊sr / 2000⌋

/-- `maxPeriod = Math.floor(sampleRate / 50)`. -/
def yinMaxPeriod (sr : ℚ) : ℤ := ⌊sr / 50⌋

/-- The candidate lags scanned: `τ = max(2, minPeriod), …, min(halfW, maxPeriod) − 1`. -/
def yinLags (halfW : ℕ) (sr : ℚ) : List ℕ :=
  let lo := max 2 (yinMinPeriod sr)
  let hi := min (halfW : ℤ) (yinMaxPeriod sr)
  List.range' lo.toNat (hi - lo).toNat

/-- The forward walk to the local minimum after a threshold crossing:
`while (τ+1 < halfW && d'(τ+1) < d'(τ)) τ++`. -/
def yinWalk (cm : ℕ → ℚ) (halfW tau : ℕ) : ℕ :=
  if h : tau + 1 < halfW ∧ cm (tau + 1) < cm tau then yinWalk cm halfW (tau + 1) else tau
  termination_by halfW - tau
  decreasing_by
    obtain ⟨h1, _⟩ := h
    omega

/-- Step 3: the first threshold crossing followed by the local-minimum walk,
falling back to the in-range global minimum of `d'` (initial state
`bestVal = 1`, `bestTau = −1`).  Returns `(bestVal, bestTau)`. -/
def yinBest (samples : List ℚ) (start halfW : ℕ) (sr : ℚ) (threshold : ℚ) : ℚ × ℤ :=
  let cm := yinCmndf samples start halfW
  match (yinLags halfW sr).find? (fun tau => decide (cm tau < threshold)) with
  | some tau0 =>
    let t := yinWalk cm halfW tau0
    (cm t, (t : ℤ))
  | none =>
    (yinLags halfW sr).foldl
      (fun bv tau => if cm tau < bv.1 then (cm tau, (tau : ℤ)) else bv) (1, -1)

/-- Step 4, parabolic interpolation around `bestTau`.  In the source, when the
denominator `2(a − 2b + c)` is zero the shift is `±Infinity` or `NaN`, the
test `|shift| < 1` is false and `refinedTau` stays `bestTau`; in `ℚ`, division
by zero yields `0` and `refinedTau = bestTau + 0`, the same value. -/
def yinRefine (cm : ℕ → ℚ) (halfW : ℕ) (bestTau : ℤ) : ℚ :=
  if 0 < bestTau ∧ bestTau < (halfW : ℤ) - 1 then
    let a := cm (bestTau - 1).toNat
    let b := cm bestTau.toNat
    let c := cm (bestTau + 1).toNat
    let shift := (a - c) / (2 * (a - 2 * b + c))
    if |shift| < 1 then (bestTau : ℚ) + shift else (bestTau : ℚ)
  else (bestTau : ℚ)

/-- The refined fundamental frequency `f0 = sampleRate / refinedTau`. -/
def yinF0 (samples : List ℚ) (start frameSize : ℕ) (sr : ℚ) (threshold : ℚ) : ℚ :=
  sr / yinRefine (yinCmndf samples start (yinHalfW frameSize)) (yinHalfW frameSize)
    (yinBest samples start (yinHalfW frameSize) sr threshold).2

/-- The raw confidence `1 − d'(bestTau)`. -/
def yinConf (samples : List ℚ) (start frameSize : ℕ) (sr : ℚ) (threshold : ℚ) : ℚ :=
  1 - (yinBest samples start (yinHalfW frameSize) sr threshold).1

/-- `yinPitchDetect` (threshold argument `0.15` at the call site): returns the
pitch (or `none`) and the confidence. -/
def yinPitchDetect (samples : List ℚ) (start frameSize : ℕ) (sr : ℚ) (threshold : ℚ) :
    Option ℚ × ℚ :=
  if yinAvailable samples.length start frameSize < frameSize then (none, 0)
  else if (yinBest samples start (yinHalfW frameSize) sr threshold).2 < 2 then (none, 0)
  else
    let f0 := yinF0 samples start frameSize sr threshold
    let conf := yinConf samples start frameSize sr threshold
    if f0 < 50 ∨ f0 > 2000 ∨ conf < 3/10 then (none, 0)
    else (some f0, max 0 (min 1 conf))

end Client

namespace Client

/-! ### Spectral engine — `fft`, `computeMagnitudeSpectrum`, `hannWindow` -/

/-- `hannWindow`: `w[i] = 0.5·(1 − cos(2πi/(size−1)))`. -/
def hannWindow (ops : FloatOps) (size : ℕ) : List ℚ :=
  (List.range size).map (fun i => 1/2 * (1 - ops.cosPi (2 * i / ((size : ℚ) - 1))))

/-- The inner `while (j & bit) { j ^= bit; bit >>= 1; }` of the bit-reversal
permutation; returns the final `(j, bit)`. -/
def bitrevWhile (j bit : ℕ) : ℕ × ℕ :=
  if h : j &&& bit ≠ 0 then bitrevWhile (j ^^^ bit) (bit >>> 1) else (j, bit)
  termination_by bit
  decreasing_by
    have hb : bit ≠ 0 := by
      intro h0
      rw [h0] at h
      simp at h
    omega

/-- In-place radix-2 Cooley–Tukey FFT (`fft` in the source): bit-reversal
permutation followed by the butterfly stages with incremental twiddle
rotation.  The stage loop `for (len = 2; len <= N; len <<= 1)` is enumerated
as `len = 2^s` for `s = 1, …, ⌊log₂ N⌋`, the same set of values. -/
def fft (ops : FloatOps) (re0 im0 : Array ℚ) : Array ℚ × Array ℚ := Id.run do
  let N := re0.size
  let mut re := re0
  let mut im := im0
  let mut j := 0
  for i in [1:N] do
    let p := bitrevWhile j (N >>> 1)
    let j2 := p.1 ^^^ p.2
    j := j2
    if i < j2 then
      let tr := re.getD i 0
      re := re.setD i (re.getD j2 0)
      re := re.setD j2 tr
      let ti := im.getD i 0
      im := im.setD i (im.getD j2 0)
      im := im.setD j2 ti
  for s in [1:N.log2 + 1] do
    let len := 2 ^ s
    let half := len >>> 1
    let wRe := ops.cosPi (-2 / (len : ℚ))
    let wIm := ops.sinPi (-2 / (len : ℚ))
    for iBase in [0:N:len] do
      let mut curRe : ℚ := 1
      let mut curIm : ℚ := 0
      for jj in [0:half] do
        let idx := iBase + jj + half
        let tRe := curRe * re.getD idx 0 - curIm * im.getD idx 0
        let tIm := curRe * im.getD idx 0 + curIm * re.getD idx 0
        re := re.setD idx (re.getD (iBase + jj) 0 - tRe)
        im := im.setD idx (im.getD (iBase + jj) 0 - tIm)
        re := re.setD (iBase + jj) (re.getD (iBase + jj) 0 + tRe)
        im := im.setD (iBase + jj) (im.getD (iBase + jj) 0 + tIm)
        let nRe := curRe * wRe - curIm * wIm
        curIm := curRe * wIm + curIm * wRe
        curRe := nRe
  return (re, im)

/-- `computeMagnitudeSpectrum`: windowed, zero-padded frame through the FFT,
returning the magnitudes of the first `frameSize/2 + 1` bins. -/
def computeMagnitudeSpectrum (ops : FloatOps) (samples : List ℚ) (start frameSize : ℕ)
    (window : List ℚ) : List ℚ :=
  let endIdx := min (start + frameSize) samples.length
  let re := (List.range frameSize).map (fun i =>
    if start + i < endIdx then samples.getD (start + i) 0 * window.getD i 0 else 0)
  let im := (List.range frameSize).map (fun _ => (0 : ℚ))
  let p := fft ops re.toArray im.toArray
  let halfN := frameSize >>> 1
  (List.range (halfN + 1)).map (fun k =>
    ops.sqrt (p.1.getD k 0 * p.1.getD k 0 + p.2.getD k 0 * p.2.getD k 0))

/-! ### Mel filterbank, DCT and MFCCs -/

/-- `hzToMel`: `2595·log10(1 + f/700)`. -/
def hzToMel (ops : FloatOps) (f : ℚ) : ℚ := 2595 * ops.log10 (1 + f / 700)

/-- `melToHz`: `700·(10^(m/2595) − 1)`. -/
def melToHz (ops : FloatOps) (m : ℚ) : ℚ := 700 * (ops.exp10 (m / 2595) - 1)

/-- `createMelFilterbank` (call sites pass no `highFreq`, so it defaults to
`sampleRate/2`; `lowFreq` defaults to `20`).  The source iterates
`k = ⌊left⌋ … ⌈right⌉` and leaves the other entries `0`; since the two branch
conditions already imply `left ≤ k ≤ right`, mapping the conditions over all
`k < numBins` yields the same filter rows. -/
def createMelFilterbank (ops : FloatOps) (numFilters fftSize : ℕ) (sampleRate : ℚ)
    (lowFreq : ℚ) : List (List ℚ) :=
  let highFreq := sampleRate / 2
  let numBins := (fftSize >>> 1) + 1
  let melLow := hzToMel ops lowFreq
  let melHigh := hzToMel ops highFreq
  let melPoints := (List.range (numFilters + 2)).map (fun i =>
    melLow + (melHigh - melLow) * i / ((numFilters : ℚ) + 1))
  let binPoints := (List.range (numFilters + 2)).map (fun i =>
    ((⌊melToHz ops (melPoints.getD i 0) / (sampleRate / 2) * ((numBins : ℚ) - 1)⌋ : ℤ) : ℚ))
  (List.range numFilters).map (fun m =>
    let left := binPoints.getD m 0
    let center := binPoints.getD (m + 1) 0
    let right := binPoints.getD (m + 2) 0
    (List.range numBins).map (fun k =>
      if left ≤ (k : ℚ) ∧ (k : ℚ) ≤ center ∧ left < center then
        ((k : ℚ) - left) / (center - left)
      else if center < (k : ℚ) ∧ (k : ℚ) ≤ right ∧ center < right then
        (right - (k : ℚ)) / (right - center)
      else 0))

/-- Type-II DCT (`dctII`): `out[k] = Σ_n input[n]·cos(πk(n+½)/N)`. -/
def dctII (ops : FloatOps) (input : List ℚ) (numCoeffs : ℕ) : List ℚ :=
  let N := input.length
  (List.range numCoeffs).map (fun k =>
    ((List.range N).map (fun n =>
      input.getD n 0 * ops.cosPi (k * ((n : ℚ) + 1/2) / N))).sum)

/-- `computeMFCC`: log mel-filterbank energies of the squared magnitude
spectrum, followed by the DCT. -/
def computeMFCC (ops : FloatOps) (magnitude : List ℚ) (melFilters : List (List ℚ))
    (numCoeffs : ℕ) : List ℚ :=
  let melEnergies := melFilters.map (fun filter =>
    ops.log (max (((List.range (min magnitude.length filter.length)).map (fun k =>
      magnitude.getD k 0 * magnitude.getD k 0 * filter.getD k 0)).sum) (1 / 10 ^ 10)))
  dctII ops melEnergies numCoeffs

/-! ### Spectral descriptors -/

/-- `computeSpectralCentroid`. -/
def computeSpectralCentroid (magnitude : List ℚ) (fftSize : ℕ) (sr : ℚ) : ℚ :=
  let sumMag := ((List.range magnitude.length).drop 1).foldl
    (fun acc k => acc + magnitude.getD k 0) 0
  let sumFreqMag := ((List.range magnitude.length).drop 1).foldl
    (fun acc k => acc + binFreq fftSize sr k * magnitude.getD k 0) 0
  if sumMag > 0 then sumFreqMag / sumMag else 0

/-- `computeSpectralBandwidth`. -/
def computeSpectralBandwidth (ops : FloatOps) (magnitude : List ℚ) (fftSize : ℕ)
    (sr : ℚ) (centroid : ℚ) : ℚ :=
  let sumMag := ((List.range magnitude.length).drop 1).foldl
    (fun acc k => acc + magnitude.getD k 0) 0
  let sumSpread := ((List.range magnitude.length).drop 1).foldl
    (fun acc k => acc + magnitude.getD k 0 * (binFreq fftSize sr k - centroid) ^ 2) 0
  if sumMag > 0 then ops.sqrt (sumSpread / sumMag) else 0

/-- `computeSpectralFlatness`: geometric over arithmetic mean of the bins
(each floored at `1e-10`), skipping bin 0. -/
def computeSpectralFlatness (ops : FloatOps) (magnitude : List ℚ) : ℚ :=
  let bins := (List.range magnitude.length).drop 1
  let logSum := bins.foldl (fun acc k => acc + ops.log (max (magnitude.getD k 0) (1 / 10 ^ 10))) 0
  let sum := bins.foldl (fun acc k => acc + max (magnitude.getD k 0) (1 / 10 ^ 10)) 0
  let count := bins.length
  if count = 0 ∨ sum = 0 then 0
  else ops.exp (logSum / count) / (sum / count)

/-- `computeSpectralFlux`: rectified spectral difference norm; `0` for the
first frame (no previous spectrum). -/
def computeSpectralFlux (ops : FloatOps) (current : List ℚ) (previous : Option (List ℚ)) : ℚ :=
  match previous with
  | none => 0
  | some prev =>
    let len := min current.length prev.length
    ops.sqrt (((List.range len).map (fun k =>
      let d := current.getD k 0 - prev.getD k 0
      if d > 0 then d ^ 2 else 0)).sum)

/-- `computeRMS` (client version, with the `n ≤ 0` guard). -/
def computeRMS (ops : FloatOps) (samples : List ℚ) (start length : ℕ) : ℚ :=
  let endIdx := min (start + length) samples.length
  let n := endIdx - start
  if n = 0 then 0
  else ops.sqrt ((((List.range n).map (fun i => samples.getD (start + i) 0 ^ 2)).sum) / n)

/-! ### The analysis pipeline — `extractFeatures` -/

/-- The per-frame outputs of `extractFeatures` (`FrameFeatures` in
`shared/schema.ts`). -/
structure FrameFeatures where
  time : ℚ
  mfcc : List ℚ
  chroma : List ℚ
  f0 : Option ℚ
  f0Conf : ℚ
  loudness : ℚ
  centroid : ℚ
  bandwidth : ℚ
  flatness : ℚ
  flux : ℚ
  deriving DecidableEq, Repr

/-- `AnalysisConfig` (defaults: `frameSize 2048`, `hopSize 512`, `numMFCC 40`,
`numMelBands 80`). -/
structure AnalysisConfig where
  frameSize : ℕ
  hopSize : ℕ
  numMFCC : ℕ
  numMelBands : ℕ
  deriving DecidableEq, Repr

def defaultConfig : AnalysisConfig := ⟨2048, 512, 40, 80⟩

/-- `numFrames = Math.floor((samples.length − frameSize) / hopSize)` (an
integer: negative when the buffer is shorter than one frame, in which case the
frame loop body never runs). -/
def numFramesZ (numSamples frameSize hopSize : ℕ) : ℤ :=
  ((numSamples : ℤ) - frameSize).fdiv hopSize

/-- Magnitude spectrum of frame `i` (frame start `i·hopSize`). -/
def magAt (ops : FloatOps) (cfg : AnalysisConfig) (samples : List ℚ) (i : ℕ) : List ℚ :=
  computeMagnitudeSpectrum ops samples (i * cfg.hopSize) cfg.frameSize
    (hannWindow ops cfg.frameSize)

/-- Body of the frame loop of `extractFeatures` for index `i`.  The source
threads `prevMag` through the loop; at iteration `i` it equals the magnitude
spectrum of frame `i − 1` (and `null` at `i = 0`), so the body is a pure
function of `i`.  The progress callback and UI yield do not affect the frames
produced. -/
def frameAt (ops : FloatOps) (cfg : AnalysisConfig) (samples : List ℚ) (sr : ℚ)
    (i : ℕ) : FrameFeatures :=
  let start := i * cfg.hopSize
  let mag := magAt ops cfg samples i
  let centroid := computeSpectralCentroid mag cfg.frameSize sr
  { time := (start : ℚ) / sr
    mfcc := computeMFCC ops mag
      (createMelFilterbank ops cfg.numMelBands cfg.frameSize sr 20) cfg.numMFCC
    chroma := computeChroma ops mag cfg.frameSize sr
    f0 := (yinPitchDetect samples start cfg.frameSize sr (3/20)).1
    f0Conf := (yinPitchDetect samples start cfg.frameSize sr (3/20)).2
    loudness := computeRMS ops samples start cfg.frameSize
    centroid := centroid
    bandwidth := computeSpectralBandwidth ops mag cfg.frameSize sr centroid
    flatness := computeSpectralFlatness ops mag
    flux := computeSpectralFlux ops mag
      (if i = 0 then none else some (magAt ops cfg samples (i - 1))) }

/-- The frame loop of `extractFeatures` (after the mono mix): one
`FrameFeatures` per `i < numFrames`, in order. -/
def extractFeatures (ops : FloatOps) (cfg : AnalysisConfig) (samples : List ℚ)
    (sr : ℚ) : List FrameFeatures :=
  (List.range (numFramesZ samples.length cfg.frameSize cfg.hopSize).toNat).map
    (frameAt ops cfg samples sr)

/-- The mono mix at the head of `extractFeatures`:
`samples[i] = Σ_ch channel[ch][i] / numChannels`. -/
def mixToMono (channels : List (List ℚ)) (length : ℕ) : List ℚ :=
  (List.range length).map (fun i =>
    (channels.map (fun ch => ch.getD i 0 / (channels.length : ℚ))).sum)

end Client

/-- JavaScript `Math.max(...l)` for the nonempty lists it is applied to (the
empty case, `-Infinity` in JS, is always guarded in the source; here it is
mapped to `0`). -/
def spreadMax (l : List ℚ) : ℚ :=
  match l with
  | [] => 0
  | h :: t => t.foldl max h

/-- JavaScript `Math.min(...l)` for the nonempty lists it is applied to. -/
def spreadMin (l : List ℚ) : ℚ :=
  match l with
  | [] => 0
  | h :: t => t.foldl min h

theorem le_foldl_max (l : List ℚ) (b : ℚ) : b ≤ l.foldl max b := by
  induction l generalizing b with
  | nil => exact le_refl b
  | cons h t ih =>
    simp only [List.foldl_cons]
    exact le_trans (le_max_left b h) (ih (max b h))

theorem foldl_min_le (l : List ℚ) (b : ℚ) : l.foldl min b ≤ b := by
  induction l generalizing b with
  | nil => exact le_refl b
  | cons h t ih =>
    simp only [List.foldl_cons]
    exact le_trans (ih (min b h)) (min_le_left b h)

theorem foldl_max_le_mem {l : List ℚ} {b x : ℚ} (hx : x ∈ l) :
    x ≤ l.foldl max b := by
  induction l generalizing b with
  | nil => cases hx
  | cons h t ih =>
    simp only [List.foldl_cons]
    rcases List.mem_cons.mp hx with rfl | hx'
    · exact le_trans (le_max_right b x) (le_foldl_max t (max b x))
    · exact ih hx'

theorem foldl_min_le_mem {l : List ℚ} {b x : ℚ} (hx : x ∈ l) :
    l.foldl min b ≤ x := by
  induction l generalizing b with
  | nil => cases hx
  | cons h t ih =>
    simp only [List.foldl_cons]
    rcases List.mem_cons.mp hx with rfl | hx'
    · exact le_trans (foldl_min_le t (min b x)) (min_le_right b x)
    · exact ih hx'

theorem spreadMax_ge {l : List ℚ} {x : ℚ} (hx : x ∈ l) : x ≤ spreadMax l := by
  cases l with
  | nil => cases hx
  | cons h t =>
    unfold spreadMax
    rcases List.mem_cons.mp hx with rfl | hx'
    · exact le_foldl_max t x
    · exact foldl_max_le_mem hx'

theorem spreadMin_le {l : List ℚ} {x : ℚ} (hx : x ∈ l) : spreadMin l ≤ x := by
  cases l with
  | nil => cases hx
  | cons h t =>
    unfold spreadMin
    rcases List.mem_cons.mp hx with rfl | hx'
    · exact foldl_min_le t x
    · exact foldl_min_le_mem hx'

namespace Client

/-! ### PCA — `pca.ts` -/

/-- `buildFeatureVector`: MFCCs ++ chroma ++ confidence-weighted scaled log
pitch ++ scaled centroid ++ loudness ++ scaled bandwidth ++ chroma
concentration.  `frame.f0 ? … : 0` is JavaScript truthiness: `null` and `0`
both fall to the `0` branch. -/
def buildFeatureVector (ops : FloatOps) (frame : FrameFeatures) : List ℚ :=
  let logF0 : ℚ :=
    match frame.f0 with
    | none => 0
    | some v => if v = 0 then 0 else ops.log2 (max 1 v) / 11
  frame.mfcc ++ frame.chroma ++
    [logF0 * frame.f0Conf, frame.centroid / 8000, frame.loudness,
     frame.bandwidth / 4000, spreadMax frame.chroma]

/-- `computeMean`: per-dimension mean. -/
def computeMean (data : List (List ℚ)) : List ℚ :=
  let N := data.length
  let D := (data.headD []).length
  (List.range D).map (fun d => (data.map (fun row => row.getD d 0)).sum / N)

/-- `computeStd`: per-dimension standard deviation, with the
`std < 1e-10 → 1` degeneracy guard. -/
def computeStd (ops : FloatOps) (data : List (List ℚ)) (mean : List ℚ) : List ℚ :=
  let N := data.length
  let D := (data.headD []).length
  (List.range D).map (fun d =>
    let s := ops.sqrt ((data.map (fun row => (row.getD d 0 - mean.getD d 0) ^ 2)).sum / N)
    if s < 1 / 10 ^ 10 then 1 else s)

/-- `standardize`: z-score normalization of every row. -/
def standardize (data : List (List ℚ)) (mean std : List ℚ) : List (List ℚ) :=
  let D := (data.headD []).length
  data.map (fun row =>
    (List.range D).map (fun d => (row.getD d 0 - mean.getD d 0) / std.getD d 0))

/-- `computeCovarianceMatrix`: `(1/N)·XᵗX`.  The source fills the upper
triangle and mirrors it; since multiplication commutes the matrix equals the
directly-computed symmetric form used here. -/
def computeCovarianceMatrix (data : List (List ℚ)) : List (List ℚ) :=
  let N := data.length
  let D := (data.headD []).length
  (List.range D).map (fun i =>
    (List.range D).map (fun j =>
      (data.map (fun row => row.getD i 0 * row.getD j 0)).sum / N))

/-- The iteration of `powerIteration`, with the `norm < 1e-10` break. -/
def powerIterLoop (ops : FloatOps) (matrix : List (List ℚ)) (D : ℕ) :
    ℕ → ℚ × List ℚ → ℚ × List ℚ
  | 0, st => st
  | n + 1, st =>
    let w := (List.range D).map (fun i =>
      ((List.range D).map (fun j => (matrix.getD i []).getD j 0 * st.2.getD j 0)).sum)
    let norm := ops.sqrt ((w.map (fun x => x ^ 2)).sum)
    if norm < 1 / 10 ^ 10 then st
    else powerIterLoop ops matrix D n (norm, w.map (fun x => x / norm))

/-- `powerIteration` (200 iterations at the call site): deterministic
alternating seed vector, normalized, then repeated matrix application. -/
def powerIteration (ops : FloatOps) (matrix : List (List ℚ)) (numIter : ℕ) : ℚ × List ℚ :=
  let D := matrix.length
  let v0 := (List.range D).map (fun i =>
    (if i % 2 = 0 then (1 : ℚ) else -1) * (1 + (i % 7) * (1/10)))
  let initNorm := ops.sqrt ((v0.map (fun x => x ^ 2)).sum)
  let v1 := if initNorm > 0 then v0.map (fun x => x / initNorm) else v0
  powerIterLoop ops matrix D numIter (0, v1)

/-- `deflateMatrix`: `M − λ·v·vᵗ`. -/
def deflateMatrix (matrix : List (List ℚ)) (eigenvalue : ℚ) (eigenvector : List ℚ) :
    List (List ℚ) :=
  let D := matrix.length
  (List.range D).map (fun i =>
    (List.range D).map (fun j =>
      (matrix.getD i []).getD j 0 - eigenvalue * eigenvector.getD i 0 * eigenvector.getD j 0))

/-- The `k = 0..2` loop of `computePCA`: power iteration plus deflation,
collecting eigenvalues and components. -/
def pcaIterate (ops : FloatOps) : ℕ → List (List ℚ) → List ℚ × List (List ℚ)
  | 0, _ => ([], [])
  | k + 1, cov =>
    let p := powerIteration ops cov 200
    let rest := pcaIterate ops k (deflateMatrix cov p.1 p.2)
    (p.1 :: rest.1, p.2 :: rest.2)

/-- The standardized feature matrix of `computePCA`. -/
def pcaStandardizedData (ops : FloatOps) (frames : List FrameFeatures) : List (List ℚ) :=
  let rawData := frames.map (buildFeatureVector ops)
  standardize rawData (computeMean rawData) (computeStd ops rawData (computeMean rawData))

/-- Eigenvalues and top-3 components of `computePCA`. -/
def pcaComponents (ops : FloatOps) (frames : List FrameFeatures) : List ℚ × List (List ℚ) :=
  pcaIterate ops 3 (computeCovarianceMatrix (pcaStandardizedData ops frames))

/-- The projected (pre-rescaling) 3D positions of `computePCA`. -/
def pcaRawPositions (ops : FloatOps) (frames : List FrameFeatures) : List (Fin 3 → ℚ) :=
  let data := pcaStandardizedData ops frames
  let comps := (pcaComponents ops frames).2
  let D := (data.headD []).length
  data.map (fun row k =>
    ((List.range D).map (fun d => row.getD d 0 * (comps.getD (k : ℕ) []).getD d 0)).sum)

/-- Per-axis minimum of the projected positions.  The source initializes the
range fold at `(+Infinity, −Infinity)`; for the nonempty position lists this
function is applied to, that fold equals a fold seeded from the first
element. -/
def axisMin (ps : List (Fin 3 → ℚ)) (k : Fin 3) : ℚ :=
  match ps with
  | [] => 0
  | p :: t => t.foldl (fun m q => min m (q k)) (p k)

/-- Per-axis maximum of the projected positions. -/
def axisMax (ps : List (Fin 3 → ℚ)) (k : Fin 3) : ℚ :=
  match ps with
  | [] => 0
  | p :: t => t.foldl (fun m q => max m (q k)) (p k)

/-- The final rescaling loop of `computePCA` (`scale = 5`): min-max normalize
each axis into `[−5, 5]`, skipping axes of nonpositive range. -/
def rescalePositions (ps : List (Fin 3 → ℚ)) : List (Fin 3 → ℚ) :=
  ps.map (fun p k =>
    let range := axisMax ps k - axisMin ps k
    if range > 0 then ((p k - axisMin ps k) / range - 1/2) * 2 * 5 else p k)

/-- Result record of `computePCA`. -/
structure PCAResult where
  positions : List (Fin 3 → ℚ)
  eigenvalues : List ℚ
  mean : List ℚ
  components : List (List ℚ)

/-- `computePCA`: standardize, covariance, power-iteration eigenextraction
with deflation, projection, min-max rescale. -/
def computePCA (ops : FloatOps) (frames : List FrameFeatures) : PCAResult :=
  if frames = [] then ⟨[], [], [], []⟩
  else
    { positions := rescalePositions (pcaRawPositions ops frames)
      eigenvalues := (pcaComponents ops frames).1
      mean := computeMean (frames.map (buildFeatureVector ops))
      components := (pcaComponents ops frames).2 }

theorem axisMin_le {ps : List (Fin 3 → ℚ)} {p : Fin 3 → ℚ} (hp : p ∈ ps) (k : Fin 3) :
    axisMin ps k ≤ p k := by
  cases ps with
  | nil => cases hp
  | cons q t =>
    unfold axisMin
    have key : ∀ (l : List (Fin 3 → ℚ)) (b : ℚ),
        (∀ r ∈ l, l.foldl (fun m q2 => min m (q2 k)) b ≤ r k) ∧
        l.foldl (fun m q2 => min m (q2 k)) b ≤ b := by
      intro l
      induction l with
      | nil => exact fun b => ⟨fun r hr => absurd hr (List.not_mem_nil r), le_refl b⟩
      | cons h2 t2 ih =>
        intro b
        simp only [List.foldl_cons]
        refine ⟨?_, ?_⟩
        · intro r hr
          rcases List.mem_cons.mp hr with rfl | hr'
          · exact le_trans (ih (min b (r k))).2 (min_le_right _ _)
          · exact (ih (min b (h2 k))).1 r hr'
        · exact le_trans (ih (min b (h2 k))).2 (min_le_left _ _)
    rcases List.mem_cons.mp hp with rfl | hp'
    · exact (key t (p k)).2
    · exact (key t (q k)).1 p hp'

theorem le_axisMax {ps : List (Fin 3 → ℚ)} {p : Fin 3 → ℚ} (hp : p ∈ ps) (k : Fin 3) :
    p k ≤ axisMax ps k := by
  cases ps with
  | nil => cases hp
  | cons q t =>
    unfold axisMax
    have key : ∀ (l : List (Fin 3 → ℚ)) (b : ℚ),
        (∀ r ∈ l, r k ≤ l.foldl (fun m q2 => max m (q2 k)) b) ∧
        b ≤ l.foldl (fun m q2 => max m (q2 k)) b := by
      intro l
      induction l with
      | nil => exact fun b => ⟨fun r hr => absurd hr (List.not_mem_nil r), le_refl b⟩
      | cons h2 t2 ih =>
        intro b
        simp only [List.foldl_cons]
        refine ⟨?_, ?_⟩
        · intro r hr
          rcases List.mem_cons.mp hr with rfl | hr'
          · exact le_trans (le_max_right _ _) (ih (max b (r k))).2
          · exact (ih (max b (h2 k))).1 r hr'
        · exact le_trans (le_max_left _ _) (ih (max b (h2 k))).2
    rcases List.mem_cons.mp hp with rfl | hp'
    · exact (key t (p k)).2
    · exact (key t (q k)).1 p hp'

end Client

namespace ServerA

/-! ### The ZCR/DFT server pipeline (`analyzeAudioFile` variant A) -/

/-- Per-frame record (`AudioFrame`). -/
structure AudioFrame where
  t : ℚ
  pitch : ℚ
  centroid : ℚ
  bandwidth : ℚ
  amplitude : ℚ
  onsetStrength : ℚ
  spectralFlux : ℚ
  spectralFlatness : ℚ
  beatStrength : ℚ
  bandLow : ℚ
  bandMid : ℚ
  bandHigh : ℚ
  onsetLow : ℚ
  onsetMid : ℚ
  onsetHigh : ℚ
  deriving DecidableEq, Repr, Inhabited

/-- `computeRMS` (server variant, no emptiness guard: a zero-length window
would divide by zero — `NaN` in JS, `0` here; the pipeline only calls it with
full in-bounds windows). -/
def computeRMS (ops : FloatOps) (samples : List ℚ) (start length : ℕ) : ℚ :=
  let endIdx := min (start + length) samples.length
  ops.sqrt ((((List.range (endIdx - start)).map (fun i => samples.getD (start + i) 0 ^ 2)).sum)
    / ((endIdx - start : ℕ) : ℚ))

/-- `computeZeroCrossingRate`: sign changes between consecutive samples over
the window, divided by the window length. -/
def computeZeroCrossingRate (samples : List ℚ) (start length : ℕ) : ℚ :=
  let endIdx := min (start + length) samples.length
  let crossings := ((List.range' (start + 1) (endIdx - (start + 1))).filter (fun i =>
    decide ((0 ≤ samples.getD i 0 ∧ samples.getD (i - 1) 0 < 0) ∨
      (samples.getD i 0 < 0 ∧ 0 ≤ samples.getD (i - 1) 0)))).length
  (crossings : ℚ) / ((endIdx - start : ℕ) : ℚ)

/-- `estimatePitchFromZCR`: `clamp(zcr·sampleRate/2, 80, 8000)`. -/
def estimatePitchFromZCR (zcr sampleRate : ℚ) : ℚ :=
  max 80 (min 8000 (zcr * sampleRate / 2))

/-- `computeFFT` (server variant A): naive `O(N²)` DFT magnitudes of the first
`frameSize/2` bins; the sample loop stops at the end of the buffer. -/
def computeFFT (ops : FloatOps) (samples : List ℚ) (start frameSize : ℕ) : List ℚ :=
  (List.range (frameSize / 2)).map (fun k =>
    let real := ((List.range frameSize).map (fun n =>
      if start + n < samples.length then
        samples.getD (start + n) 0 * ops.cosPi (2 * k * n / (frameSize : ℚ))
      else 0)).sum
    let imag := -((List.range frameSize).map (fun n =>
      if start + n < samples.length then
        samples.getD (start + n) 0 * ops.sinPi (2 * k * n / (frameSize : ℚ))
      else 0)).sum
    ops.sqrt (real ^ 2 + imag ^ 2))

/-- Bin frequency `bin * sampleRate / fftSize`. -/
def binFreqA (fftSize : ℕ) (sampleRate : ℚ) (k : ℕ) : ℚ :=
  k * sampleRate / fftSize

/-- `computeSpectralFeatures`: magnitude-weighted centroid (default `1000` on
an all-zero spectrum) and bandwidth (default `500`). -/
def computeSpectralFeatures (ops : FloatOps) (fft : List ℚ) (frameSize : ℕ)
    (sampleRate : ℚ) : ℚ × ℚ :=
  let bins := (List.range fft.length).drop 1
  let sumMag := (bins.map (fun k => fft.getD k 0)).sum
  let sumFreqMag := (bins.map (fun k => binFreqA frameSize sampleRate k * fft.getD k 0)).sum
  let centroid := if sumMag > 0 then sumFreqMag / sumMag else 1000
  let sumBandwidth := (bins.map (fun k =>
    fft.getD k 0 * (binFreqA frameSize sampleRate k - centroid) ^ 2)).sum
  let bandwidth := if sumMag > 0 then ops.sqrt (sumBandwidth / sumMag) else 500
  (centroid, bandwidth)

/-- `computeSpectralFlux` (server variant: iterates over the current
spectrum's bins). -/
def computeSpectralFlux (ops : FloatOps) (currentFFT : List ℚ)
    (prevFFT : Option (List ℚ)) : ℚ :=
  match prevFFT with
  | none => 0
  | some prev =>
    ops.sqrt (((List.range currentFFT.length).map (fun k =>
      let d := currentFFT.getD k 0 - prev.getD k 0
      if d > 0 then d ^ 2 else 0)).sum)

/-- `computeSpectralFlatness` (server variant, identical shape to the client
one). -/
def computeSpectralFlatness (ops : FloatOps) (fft : List ℚ) : ℚ :=
  let bins := (List.range fft.length).drop 1
  let logSum := (bins.map (fun k => ops.log (max (fft.getD k 0) (1 / 10 ^ 10)))).sum
  let sum := (bins.map (fun k => max (fft.getD k 0) (1 / 10 ^ 10))).sum
  let count := bins.length
  if count = 0 ∨ sum = 0 then 0
  else ops.exp (logSum / count) / (sum / count)

/-- `computeOnsetStrength`: rectified RMS increase, scaled by 10 and capped at 1. -/
def computeOnsetStrength (prevRMS currentRMS : ℚ) : ℚ :=
  if currentRMS - prevRMS > 0 then min 1 ((currentRMS - prevRMS) * 10) else 0

/-- `computeBandEnergies`: magnitude sums over the 20–250, 250–2000 and
2000–8000 Hz bands. -/
def computeBandEnergies (fft : List ℚ) (fftSize : ℕ) (sampleRate : ℚ) : ℚ × ℚ × ℚ :=
  let low := (((List.range fft.length).filter (fun bin =>
    decide (20 ≤ binFreqA fftSize sampleRate bin ∧ binFreqA fftSize sampleRate bin < 250))).map
    (fun bin => fft.getD bin 0)).sum
  let mid := (((List.range fft.length).filter (fun bin =>
    decide (250 ≤ binFreqA fftSize sampleRate bin ∧ binFreqA fftSize sampleRate bin < 2000))).map
    (fun bin => fft.getD bin 0)).sum
  let high := (((List.range fft.length).filter (fun bin =>
    decide (2000 ≤ binFreqA fftSize sampleRate bin ∧ binFreqA fftSize sampleRate bin < 8000))).map
    (fun bin => fft.getD bin 0)).sum
  (low, mid, high)

/-- `numFrames = Math.floor((samples.length − 2048) / 512)` (frame size 2048,
hop 512 are hardcoded in `extractAudioFrames`). -/
def numFramesA (numSamples : ℕ) : ℤ := ((numSamples : ℤ) - 2048).fdiv 512

/-- RMS amplitude of frame `i`. -/
def rmsAt (ops : FloatOps) (samples : List ℚ) (i : ℕ) : ℚ :=
  computeRMS ops samples (i * 512) 2048

/-- DFT spectrum of frame `i` (`fftSize = 512`). -/
def fftAt (ops : FloatOps) (samples : List ℚ) (i : ℕ) : List ℚ :=
  computeFFT ops samples (i * 512) 512

/-- Body of the frame loop of `extractAudioFrames` for index `i`.  The source
threads `prevRMS`/`prevFFT` through the loop; at iteration `i` they are the
RMS and spectrum of frame `i − 1` (and `0`/`null` at `i = 0`), so the body is
a pure function of `i`. -/
def rawFrameAt (ops : FloatOps) (samples : List ℚ) (sampleRate : ℚ) (i : ℕ) : AudioFrame :=
  let start := i * 512
  let amplitude := rmsAt ops samples i
  let zcr := computeZeroCrossingRate samples start 2048
  let fft := fftAt ops samples i
  let cb := computeSpectralFeatures ops fft 512 sampleRate
  let bands := computeBandEnergies fft 512 sampleRate
  { t := (start : ℚ) / sampleRate
    pitch := estimatePitchFromZCR zcr sampleRate
    centroid := cb.1
    bandwidth := cb.2
    amplitude := amplitude
    onsetStrength := computeOnsetStrength (if i = 0 then 0 else rmsAt ops samples (i - 1)) amplitude
    spectralFlux := computeSpectralFlux ops fft (if i = 0 then none else some (fftAt ops samples (i - 1)))
    spectralFlatness := computeSpectralFlatness ops fft
    beatStrength := 0
    bandLow := bands.1
    bandMid := bands.2.1
    bandHigh := bands.2.2
    onsetLow := 0
    onsetMid := 0
    onsetHigh := 0 }

/-- The frame loop of `extractAudioFrames`, before the smoothing passes. -/
def rawFrames (ops : FloatOps) (samples : List ℚ) (sampleRate : ℚ) : List AudioFrame :=
  (List.range (numFramesA samples.length).toNat).map (rawFrameAt ops samples sampleRate)

/-- State of the exponential smoothing pass: the previous smoothed values. -/
structure SmoothState where
  pitch : ℚ
  centroid : ℚ
  amplitude : ℚ
  bandwidth : ℚ
  bandLow : ℚ
  bandMid : ℚ
  bandHigh : ℚ

/-- One step of `applyTemporalSmoothing` (`α = 0.5`). -/
def smoothStep (acc : SmoothState × List AudioFrame) (f : AudioFrame) :
    SmoothState × List AudioFrame :=
  let st := acc.1
  let sp := 1/2 * f.pitch + 1/2 * st.pitch
  let sc := 1/2 * f.centroid + 1/2 * st.centroid
  let sa := 1/2 * f.amplitude + 1/2 * st.amplitude
  let sb := 1/2 * f.bandwidth + 1/2 * st.bandwidth
  let sl := 1/2 * f.bandLow + 1/2 * st.bandLow
  let sm := 1/2 * f.bandMid + 1/2 * st.bandMid
  let sh := 1/2 * f.bandHigh + 1/2 * st.bandHigh
  (⟨sp, sc, sa, sb, sl, sm, sh⟩,
    acc.2 ++ [{ f with
      pitch := sp
      centroid := sc
      amplitude := sa
      bandwidth := sb
      bandLow := sl
      bandMid := sm
      bandHigh := sh }])

/-- `applyTemporalSmoothing`: in-order EMA pass seeded from the first frame's
raw values; a no-op on fewer than 3 frames. -/
def applyTemporalSmoothing (frames : List AudioFrame) : List AudioFrame :=
  if frames.length < 3 then frames
  else
    match frames with
    | [] => frames
    | f0 :: _ =>
      (frames.foldl smoothStep
        (⟨f0.pitch, f0.centroid, f0.amplitude, f0.bandwidth, f0.bandLow, f0.bandMid, f0.bandHigh⟩,
         [])).2

/-- First pass of `computeBandOnsets`: rectified per-band energy increases
against the previous frame (the first frame diffs against itself). -/
def bandOnsetStep (acc : (ℚ × ℚ × ℚ) × List AudioFrame) (f : AudioFrame) :
    (ℚ × ℚ × ℚ) × List AudioFrame :=
  let prev := acc.1
  ((f.bandLow, f.bandMid, f.bandHigh),
    acc.2 ++ [{ f with
      onsetLow := max 0 (f.bandLow - prev.1)
      onsetMid := max 0 (f.bandMid - prev.2.1)
      onsetHigh := max 0 (f.bandHigh - prev.2.2) }])

/-- `computeBandOnsets`: rectified band-energy increases, normalized per band
by `Math.max(...onsets, 0.001)`; a no-op on fewer than 2 frames. -/
def computeBandOnsets (frames : List AudioFrame) : List AudioFrame :=
  if frames.length < 2 then frames
  else
    match frames with
    | [] => frames
    | f0 :: _ =>
      let frames1 := (frames.foldl bandOnsetStep ((f0.bandLow, f0.bandMid, f0.bandHigh), [])).2
      let maxOnsetLow := (frames1.map (fun f => f.onsetLow)).foldl max (1/1000)
      let maxOnsetMid := (frames1.map (fun f => f.onsetMid)).foldl max (1/1000)
      let maxOnsetHigh := (frames1.map (fun f => f.onsetHigh)).foldl max (1/1000)
      frames1.map (fun f => { f with
        onsetLow := f.onsetLow / maxOnsetLow
        onsetMid := f.onsetMid / maxOnsetMid
        onsetHigh := f.onsetHigh / maxOnsetHigh })

/-- `detectBeats`: normalized-flux peak picking against a sliding-window
adaptive threshold (`mean·1.3 + 0.1`), followed by renormalization of the beat
strengths; a no-op on fewer than 10 frames or an all-zero flux track. -/
def detectBeats (frames : List AudioFrame) : List AudioFrame :=
  if frames.length < 10 then frames
  else
    let fluxValues := frames.map (fun f => f.spectralFlux)
    let maxFlux := spreadMax fluxValues
    if maxFlux = 0 then frames
    else
      let normalizedFlux := fun i => fluxValues.getD i 0 / maxFlux
      let windowSize := min 10 (frames.length / 4)
      let threshold := fun i =>
        let s := i - windowSize
        let e := min frames.length (i + windowSize + 1)
        let mean := (((List.range' s (e - s)).map normalizedFlux).sum) / ((e - s : ℕ) : ℚ)
        mean * 13/10 + 1/10
      let frames2 := frames.mapIdx (fun i f =>
        if 1 ≤ i ∧ i + 1 < frames.length ∧
            normalizedFlux i > normalizedFlux (i - 1) ∧
            normalizedFlux i ≥ normalizedFlux (i + 1) ∧
            normalizedFlux i > threshold i
        then { f with beatStrength := min 1 (normalizedFlux i * 3/2) }
        else f)
      let maxBeatStrength := spreadMax (frames2.map (fun f => f.beatStrength))
      if maxBeatStrength > 0 then
        frames2.map (fun f => { f with beatStrength := f.beatStrength / maxBeatStrength })
      else frames2

/-- `extractAudioFrames`: the frame loop followed by the smoothing, band-onset
and beat-detection passes. -/
def extractAudioFrames (ops : FloatOps) (samples : List ℚ) (sampleRate : ℚ) :
    List AudioFrame :=
  detectBeats (computeBandOnsets (applyTemporalSmoothing (rawFrames ops samples sampleRate)))

end ServerA

namespace ServerA

/-! ### Segmentation — `segmentIntoVerses` -/

/-- A phrase segment `{start, end, frames}` (field `end` of the source is
named `stop` here: `end` is a Lean keyword). -/
structure Segment where
  start : ℚ
  stop : ℚ
  frames : List AudioFrame
  deriving DecidableEq, Repr, Inhabited

/-- The segmenter's loop state. -/
structure SegState where
  verses : List Segment
  verseStart : ℚ
  verseFrames : List AudioFrame
  inSilence : Bool
  silenceStart : ℚ
  deriving DecidableEq, Repr

/-- `silenceThreshold = 0.1 · max frame amplitude`. -/
def silenceThreshold (frames : List AudioFrame) : ℚ :=
  spreadMax (frames.map (fun f => f.amplitude)) * (1/10)

/-- One iteration of the segmenter's frame loop
(`minSilenceDuration = 0.2`, `minVerseDuration = 0.3`). -/
def segStep (th : ℚ) (st : SegState) (f : AudioFrame) : SegState :=
  let isSilent := f.amplitude < th
  let st1 :=
    if isSilent ∧ ¬st.inSilence then
      { st with inSilence := true, silenceStart := f.t }
    else if ¬isSilent ∧ st.inSilence then
      let st2 :=
        if f.t - st.silenceStart > 1/5 ∧ st.verseFrames ≠ [] then
          { st with
            verses := st.verses ++
              (if st.silenceStart - st.verseStart ≥ 3/10 then
                [⟨st.verseStart, st.silenceStart, st.verseFrames⟩] else [])
            verseStart := f.t
            verseFrames := [] }
        else st
      { st2 with inSilence := false }
    else st
  if ¬isSilent then { st1 with verseFrames := st1.verseFrames ++ [f] } else st1

/-- The segmenter's loop over all frames. -/
def segLoop (th : ℚ) (frames : List AudioFrame) : SegState :=
  frames.foldl (segStep th) ⟨[], 0, [], false, 0⟩

/-- The silence-based path of `segmentIntoVerses`: the phrases closed inside
the loop plus, if any non-silent frames remain, the trailing phrase extending
to track end. -/
def silenceVerses (frames : List AudioFrame) (duration : ℚ) : List Segment :=
  let st := segLoop (silenceThreshold frames) frames
  st.verses ++
    (if st.verseFrames ≠ [] then [⟨st.verseStart, duration, st.verseFrames⟩] else [])

/-- `Math.min(4, Math.ceil(duration / 5))` of the fixed-interval fallback. -/
def fallbackK (duration : ℚ) : ℤ := min 4 ⌈duration / 5⌉

/-- `segmentDuration = duration / min(4, ⌈duration/5⌉)`. -/
def fallbackSegDuration (duration : ℚ) : ℚ := duration / (fallbackK duration : ℚ)

/-- `numSegments = ⌈duration / segmentDuration⌉`. -/
def fallbackNumSegments (duration : ℚ) : ℤ := ⌈duration / fallbackSegDuration duration⌉

/-- One iteration of the fallback loop: bucket the frames whose time falls in
`[i·segmentDuration, min((i+1)·segmentDuration, duration))`, skipping empty
buckets. -/
def fallbackBody (frames : List AudioFrame) (duration : ℚ) (i : ℕ) : Option Segment :=
  let s := (i : ℚ) * fallbackSegDuration duration
  let e := min (((i : ℚ) + 1) * fallbackSegDuration duration) duration
  let segmentFrames := frames.filter (fun f => decide (s ≤ f.t ∧ f.t < e))
  if segmentFrames ≠ [] then some ⟨s, e, segmentFrames⟩ else none

/-- The fixed-interval fallback: split the duration into
`min(4, ⌈duration/5⌉)` equal intervals and bucket frames by time range,
emitting only nonempty buckets. -/
def fallbackVerses (frames : List AudioFrame) (duration : ℚ) : List Segment :=
  (List.range (fallbackNumSegments duration).toNat).filterMap (fallbackBody frames duration)

/-- `segmentIntoVerses`: silence-based segmentation with the fixed-interval
fallback when no phrase survives. -/
def segmentIntoVerses (frames : List AudioFrame) (duration : ℚ) : List Segment :=
  if frames = [] then []
  else
    let verses := silenceVerses frames duration
    if verses = [] then fallbackVerses frames duration else verses

/-! ### Graph builder — `findKNearestNeighbors` -/

end ServerA

/-- Stable insertion into an ascending-`le`-sorted list: the new element is
placed after every prefix element `y` with `le y x`. -/
def stableInsert {α : Type} (le : α → α → Bool) (x : α) : List α → List α
  | [] => [x]
  | y :: t => if le y x then y :: stableInsert le x t else x :: y :: t

/-- The stable sort by `le`, processing elements left to right.  A stable
sort's output is uniquely determined by the comparator, and ECMAScript's
`Array.prototype.sort` (stable since ES2019) with comparator
`(a, b) => f(a) - f(b)` is exactly the stable sort by `le a b = f a ≤ f b`;
this structurally recursive formulation is used because it is the one the
kernel and `simp` can evaluate. -/
def stableSortBy {α : Type} (le : α → α → Bool) (l : List α) : List α :=
  l.foldl (fun acc x => stableInsert le x acc) []

theorem mem_stableInsert {α : Type} (le : α → α → Bool) (x a : α) (l : List α) :
    a ∈ stableInsert le x l ↔ a = x ∨ a ∈ l := by
  induction l with
  | nil => simp [stableInsert]
  | cons y t ih =>
    simp only [stableInsert]
    split_ifs with h
    · rw [List.mem_cons, ih, List.mem_cons]
      tauto
    · simp only [List.mem_cons]

theorem mem_stableSortBy {α : Type} (le : α → α → Bool) (a : α) (l : List α) :
    a ∈ stableSortBy le l ↔ a ∈ l := by
  have key : ∀ (l2 : List α) (acc : List α),
      (a ∈ l2.foldl (fun acc2 x => stableInsert le x acc2) acc ↔ a ∈ acc ∨ a ∈ l2) := by
    intro l2
    induction l2 with
    | nil => simp
    | cons y t ih =>
      intro acc
      simp only [List.foldl_cons, ih, mem_stableInsert, List.mem_cons]
      tauto
  unfold stableSortBy
  rw [key l []]
  simp

namespace ServerA


/-- Dominant band marker. -/
inductive Band
  | low
  | mid
  | high
  deriving DecidableEq, Repr, Inhabited

/-- A visualization point (variant A). -/
structure VisualizationPoint where
  x : ℚ
  y : ℚ
  z : ℚ
  size : ℚ
  color : ℚ × ℚ × ℚ
  time : ℚ
  beatStrength : ℚ
  complexity : ℚ
  band : Band
  bandOffsetZ : ℚ
  onsetLow : ℚ
  onsetMid : ℚ
  onsetHigh : ℚ
  deriving DecidableEq, Repr, Inhabited

/-- The distance list built for point `i`: every other index `j` paired with
the Euclidean distance in 3D. -/
def knnDistances (ops : FloatOps) (points : List VisualizationPoint) (i : ℕ) :
    List (ℕ × ℚ) :=
  ((List.range points.length).filter (fun j => decide (j ≠ i))).map (fun j =>
    let pi2 := points.getD i default
    let pj := points.getD j default
    (j, ops.sqrt ((pi2.x - pj.x) ^ 2 + (pi2.y - pj.y) ^ 2 + (pi2.z - pj.z) ^ 2)))

/-- The `k` nearest candidate indices for point `i`: the distance list sorted
ascending by `dist` (the stable sort that `Array.prototype.sort` performs with
the comparator `(a, b) => a.dist - b.dist`), truncated to `k`. -/
def knnCandidates (ops : FloatOps) (points : List VisualizationPoint) (k i : ℕ) :
    List ℕ :=
  ((stableSortBy (fun a b => decide (a.2 ≤ b.2)) (knnDistances ops points i)).take k).map
    (fun d => d.1)

/-- The canonical dedup key `i < j ? "i-j" : "j-i"` of the edge set. -/
def edgeKey (i j : ℕ) : ℕ × ℕ := if i < j then (i, j) else (j, i)

/-- Edge accumulator: pushed edges plus the set of seen keys. -/
structure KnnState where
  edges : List (ℕ × ℕ)
  seen : List (ℕ × ℕ)
  deriving DecidableEq, Repr

/-- Push edge `(i, j)` unless its key was already seen. -/
def knnInsert (st : KnnState) (i j : ℕ) : KnnState :=
  if edgeKey i j ∈ st.seen then st
  else ⟨st.edges ++ [(i, j)], edgeKey i j :: st.seen⟩

/-- `findKNearestNeighbors`: for every point, link it to its `k` nearest
neighbors, deduplicating undirected pairs via the key set. -/
def findKNearestNeighbors (ops : FloatOps) (points : List VisualizationPoint)
    (k : ℕ) : List (ℕ × ℕ) :=
  ((List.range points.length).foldl (fun st i =>
    (knnCandidates ops points k i).foldl (fun st2 j => knnInsert st2 i j) st)
    ⟨[], []⟩).edges

/-! ### Visualization mapping and the analysis core -/

/-- `pickDominantBand`. -/
def pickDominantBand (f : AudioFrame) : Band × ℚ :=
  if f.bandMid ≥ f.bandLow ∧ f.bandMid ≥ f.bandHigh then (Band.mid, f.onsetMid)
  else if f.bandLow ≥ f.bandMid ∧ f.bandLow ≥ f.bandHigh then (Band.low, f.onsetLow)
  else (Band.high, f.onsetHigh)

/-- A named verse with its points and edges. -/
structure Verse where
  id : ℕ
  name : String
  start : ℚ
  stop : ℚ
  points : List VisualizationPoint
  edges : List (ℕ × ℕ)
  deriving DecidableEq, Repr

/-- `mapFramesToVisualization`: global normalization ranges over all segment
frames, then per segment a downsample to at most 400 points, the visual
attribute mapping, and the k-NN edges. -/
def mapFramesToVisualization (ops : FloatOps) (verseSegments : List Segment)
    (duration : ℚ) : List Verse :=
  let allFrames := (verseSegments.map (fun v => v.frames)).flatten
  if allFrames = [] then []
  else
    let pitchValues := allFrames.map (fun f => ops.log2 (max 1 f.pitch))
    let pitchMin := spreadMin pitchValues
    let pitchMax := spreadMax pitchValues
    let centroidMin := spreadMin (allFrames.map (fun f => f.centroid))
    let centroidMax := spreadMax (allFrames.map (fun f => f.centroid))
    let bandwidthMin := spreadMin (allFrames.map (fun f => f.bandwidth))
    let bandwidthMax := spreadMax (allFrames.map (fun f => f.bandwidth))
    let amplitudeMax := spreadMax (allFrames.map (fun f => f.amplitude))
    verseSegments.mapIdx (fun verseIndex segment =>
      let verseDuration := segment.stop - segment.start
      let step := max 1 (segment.frames.length / 400)
      let sampledFrames := ((segment.frames.mapIdx (fun i f => (i, f))).filter
        (fun p => decide (p.1 % step = 0))).map (fun p => p.2)
      let points : List VisualizationPoint := sampledFrames.map (fun frame =>
        let normalizedTime := if verseDuration > 0 then (frame.t - segment.start) / verseDuration else 0
        let normalizedPitch := normalizeValue (ops.log2 (max 1 frame.pitch)) pitchMin pitchMax
        let normalizedCentroid := normalizeValue frame.centroid centroidMin centroidMax
        let normalizedBandwidth := normalizeValue frame.bandwidth bandwidthMin bandwidthMax
        let normalizedAmplitude := if amplitudeMax > 0 then frame.amplitude / amplitudeMax else 0
        let band := (pickDominantBand frame).1
        { x := normalizedTime
          y := normalizedPitch
          z := normalizedCentroid
          size := 3/10 + normalizedAmplitude * (7/10)
          color := (normalizedCentroid, 7/10 + normalizedBandwidth * (3/10),
            2/5 + normalizedAmplitude * (2/5))
          time := frame.t
          beatStrength := frame.beatStrength
          complexity := (1 - frame.spectralFlatness) * normalizedBandwidth
          band := band
          bandOffsetZ := match band with
            | Band.low => -4/5
            | Band.mid => 0
            | Band.high => 4/5
          onsetLow := frame.onsetLow
          onsetMid := frame.onsetMid
          onsetHigh := frame.onsetHigh })
      let edges := if points.length > 1 then findKNearestNeighbors ops points 3 else []
      ({ id := verseIndex
         name := "Phrase " ++ toString (verseIndex + 1)
         start := segment.start
         stop := segment.stop
         points := points
         edges := edges } : Verse))

/-- The analysis result `{duration, sampleRate, verses}`. -/
structure AnalysisResult where
  duration : ℚ
  sampleRate : ℚ
  verses : List Verse
  deriving DecidableEq, Repr

/-- The core of `analyzeAudioFile` after WAV parsing and PCM extraction: the
only abort point past PCM extraction is the empty-samples check; everything
downstream is total.  (File-format handling, transcoding and file IO sit
outside the sample-level pipeline.) -/
def analyzeSamples (ops : FloatOps) (samples : List ℚ) (sampleRate : ℚ) :
    Except String AnalysisResult :=
  if samples.length = 0 then
    Except.error "Could not extract audio samples from the file."
  else
    let duration := (samples.length : ℚ) / sampleRate
    let frames := extractAudioFrames ops samples sampleRate
    let verseSegments := segmentIntoVerses frames duration
    let verses := mapFramesToVisualization ops verseSegments duration
    Except.ok ⟨duration, sampleRate, verses⟩

end ServerA

namespace ServerB

/-! ### The MFCC+PCA server pipeline — `applyPCA` and its fallback -/

/-- Per-frame record (`AudioFrame`, variant B): time, MFCC vector, optional
PCA coordinates, optional dominant frequency and amplitude. -/
structure AudioFrameB where
  t : ℚ
  mfccs : List ℚ
  pcaCoordinates : Option (ℚ × ℚ × ℚ)
  frequency : Option ℚ
  amplitude : Option ℚ
  deriving DecidableEq, Repr, Inhabited

/-- `PCA_MFCC_DIM`. -/
def PCA_MFCC_DIM : ℕ := 40

/-- `fallbackPcaCoordinates`: 3D coordinates from the first three MFCCs scaled
by `0.1` (`frame.mfccs[d] ?? 0` is `getD`). -/
def fallbackPcaCoordinates (frames : List AudioFrameB) : List AudioFrameB :=
  frames.map (fun f =>
    { f with pcaCoordinates := some (
        f.mfccs.getD 0 0 * (1/10), f.mfccs.getD 1 0 * (1/10), f.mfccs.getD 2 0 * (1/10)) })

/-- The result of the external `ml-matrix` `EigenvalueDecomposition`, modelled
abstractly: recorded dimensions, entry access into the eigenvector matrix, and
the real eigenvalues. -/
structure EvdResult where
  rows : ℕ
  columns : ℕ
  eigenvectorMatrix : ℕ → ℕ → ℚ
  realEigenvalues : List ℚ

/-- `sampleStep`: uniform stride capping the PCA basis sample at 2000 rows. -/
def sampleStep (numFrames : ℕ) : ℕ :=
  if numFrames > 2000 then numFrames / 2000 else 1

/-- The sampled MFCC matrix: rows at indices `0, step, 2·step, …`, each sliced
or zero-padded to exactly 40 columns. -/
def sampledData (frames : List AudioFrameB) : List (List ℚ) :=
  let step := sampleStep frames.length
  let count := (frames.length + step - 1) / step
  (List.range' 0 count step).map (fun idx =>
    let m := (frames.getD idx default).mfccs
    if m.length = PCA_MFCC_DIM then m
    else if m.length > PCA_MFCC_DIM then m.take PCA_MFCC_DIM
    else m ++ List.replicate (PCA_MFCC_DIM - m.length) 0)

/-- Column means of the sampled matrix (`Matrix.mean('column')`). -/
def meansOf (frames : List AudioFrameB) : List ℚ :=
  let data := sampledData frames
  (List.range PCA_MFCC_DIM).map (fun col =>
    (data.map (fun row => row.getD col 0)).sum / (data.length : ℚ))

/-- The 40×40 covariance matrix `Xᵗ·X / (rows − 1)` of the centered sampled
matrix, as fed to the eigendecomposition. -/
def covOf (frames : List AudioFrameB) : List (List ℚ) :=
  let data := sampledData frames
  let means := meansOf frames
  let centered := data.map (fun row =>
    (List.range PCA_MFCC_DIM).map (fun col => row.getD col 0 - means.getD col 0))
  (List.range PCA_MFCC_DIM).map (fun i =>
    (List.range PCA_MFCC_DIM).map (fun j =>
      (centered.map (fun row => row.getD i 0 * row.getD j 0)).sum / ((data.length : ℚ) - 1)))

/-- `applyPCA`, parameterized by the external eigendecomposition `evd`
(`none` models the decomposition throwing, which the `try`/`catch` folds into
the fallback): empty input passes through, a single frame falls back, a
failed decomposition or one whose eigenvector matrix is not 40×40 falls back,
and otherwise all frames are projected onto the top-3 eigenvectors and
rescaled by `5 / maxAbs`. -/
def applyPCA (evd : List (List ℚ) → Option EvdResult) (frames : List AudioFrameB) :
    List AudioFrameB :=
  if frames.length = 0 then frames
  else if frames.length < 2 then fallbackPcaCoordinates frames
  else
    match evd (covOf frames) with
    | none => fallbackPcaCoordinates frames
    | some e =>
      if e.rows ≠ PCA_MFCC_DIM ∨ e.columns ≠ PCA_MFCC_DIM then
        fallbackPcaCoordinates frames
      else
        let sorted := stableSortBy (fun a b => decide (b.1 ≤ a.1))
          (e.realEigenvalues.mapIdx (fun idx val => (val, idx)))
        let col0 := (sorted.getD 0 (0, 0)).2
        let col1 := (sorted.getD 1 (0, 0)).2
        let col2 := (sorted.getD 2 (0, 0)).2
        let pc0 := (List.range PCA_MFCC_DIM).map (fun r => e.eigenvectorMatrix r col0)
        let pc1 := (List.range PCA_MFCC_DIM).map (fun r => e.eigenvectorMatrix r col1)
        let pc2 := (List.range PCA_MFCC_DIM).map (fun r => e.eigenvectorMatrix r col2)
        let means := meansOf frames
        let coords := frames.map (fun f =>
          let centered := (List.range PCA_MFCC_DIM).map (fun d =>
            (if d < f.mfccs.length then f.mfccs.getD d 0 else 0) - means.getD d 0)
          (((centered.zip pc0).map (fun p => p.1 * p.2)).sum,
           ((centered.zip pc1).map (fun p => p.1 * p.2)).sum,
           ((centered.zip pc2).map (fun p => p.1 * p.2)).sum))
        let maxAbs := ((coords.map (fun c => [|c.1|, |c.2.1|, |c.2.2|])).flatten).foldl max 0
        let scale := if maxAbs > 0 then 5 / maxAbs else 1
        (frames.zip coords).map (fun p =>
          { p.1 with pcaCoordinates := some (
              p.2.1 * scale, p.2.2.1 * scale, p.2.2.2 * scale) })

/-! The variant-B `segmentIntoVerses` is line-for-line the variant-A segmenter
with `frame.amplitude || 0` in place of `frame.amplitude`; the segmentation
claims are settled against the variant-A embedding above. -/

end ServerB

/-! ## Claim theorems -/

/-- C9: for all rational inputs `(value, min, max)`, the range-normalization
helpers (`normalizeValue` of the server pipeline and `norm` of the visual
mapper) return a result clamped to `[0, 1]`, and return exactly the midpoint
`0.5` whenever the observed range has zero width (`max = min`). -/
theorem c9_normalization_clamped (v mn mx : ℚ) :
    (0 ≤ ServerA.normalizeValue v mn mx ∧ ServerA.normalizeValue v mn mx ≤ 1) ∧
    (mx = mn → ServerA.normalizeValue v mn mx = 1/2) ∧
    (0 ≤ Visual.norm v mn mx ∧ Visual.norm v mn mx ≤ 1) ∧
    (mx = mn → Visual.norm v mn mx = 1/2) := by
  unfold ServerA.normalizeValue Visual.norm
  refine ⟨⟨?_, ?_⟩, ?_, ⟨?_, ?_⟩, ?_⟩
  · split_ifs with h
    · norm_num
    · exact le_max_left 0 _
  · split_ifs with h
    · norm_num
    · exact max_le (by norm_num) (min_le_left _ _)
  · intro h
    simp [h]
  · split_ifs with h
    · norm_num
    · exact le_max_left 0 _
  · split_ifs with h
    · norm_num
    · exact max_le (by norm_num) (min_le_left _ _)
  · intro h
    simp [h]

/-- Witness for C9 at `(value, min, max) = (3, 1, 1)` and `(3, 1, 2)`. -/
theorem c9_normalization_clamped_witness :
    (0 ≤ ServerA.normalizeValue 3 1 2 ∧ ServerA.normalizeValue 3 1 2 ≤ 1) ∧
    ServerA.normalizeValue 3 1 1 = 1/2 ∧ Visual.norm 3 1 1 = 1/2 := by
  refine ⟨(c9_normalization_clamped 3 1 2).1, ?_, ?_⟩
  · exact (c9_normalization_clamped 3 1 1).2.1 rfl
  · exact (c9_normalization_clamped 3 1 1).2.2.2 rfl

/-- C2: the 12-element chroma vector returned by `computeChroma` sums to
exactly 1 whenever some FFT bin whose frequency lies in `[30, 5000]` Hz has
nonzero magnitude, and is exactly the all-zero vector when the accumulated
in-range energy is zero (in which case no division is performed: the
normalization branch is skipped). -/
theorem c2_chroma_sum (ops : FloatOps) (mag : List ℚ) (fftSize : ℕ) (sr : ℚ) :
    ((∃ k, k < mag.length ∧ 30 ≤ Client.binFreq fftSize sr k ∧
        Client.binFreq fftSize sr k ≤ 5000 ∧ mag.getD k 0 ≠ 0) →
      (Client.computeChroma ops mag fftSize sr).sum = 1) ∧
    (Client.chromaTotal ops mag fftSize sr = 0 →
      Client.computeChroma ops mag fftSize sr = List.replicate 12 0) := by
  constructor
  · rintro ⟨k, hk, h30, h5000, hmag⟩
    have hk1 : 1 ≤ k := by
      rcases Nat.eq_zero_or_pos k with rfl | hpos
      · have h0 : Client.binFreq fftSize sr 0 = 0 := by
          unfold Client.binFreq
          simp
        rw [h0] at h30
        norm_num at h30
      · exact hpos
    have hmem : k ∈ Client.chromaBins mag.length := Client.mem_chromaBins.mpr ⟨hk1, hk⟩
    have hcontrib : Client.chromaContrib mag fftSize sr k = mag.getD k 0 ^ 2 := by
      unfold Client.chromaContrib
      rw [if_neg]
      push_neg
      exact ⟨by linarith, by linarith⟩
    have hpos : 0 < Client.chromaTotal ops mag fftSize sr := by
      rw [Client.chromaTotal_eq_contribSum]
      have hle : Client.chromaContrib mag fftSize sr k ≤
          ((Client.chromaBins mag.length).map (Client.chromaContrib mag fftSize sr)).sum := by
        refine List.single_le_sum ?_ _ (List.mem_map_of_mem _ hmem)
        rintro x hx
        obtain ⟨j, _, rfl⟩ := List.mem_map.mp hx
        exact Client.chromaContrib_nonneg mag fftSize sr j
      have hsq : 0 < mag.getD k 0 ^ 2 :=
        lt_of_le_of_ne (sq_nonneg _) (Ne.symm (pow_ne_zero 2 hmag))
      calc (0 : ℚ) < mag.getD k 0 ^ 2 := hsq
        _ = Client.chromaContrib mag fftSize sr k := hcontrib.symm
        _ ≤ _ := hle
    simp only [Client.computeChroma, if_pos hpos]
    rw [listRange_map_sum, ← Finset.sum_div]
    exact div_self (ne_of_gt hpos)
  · intro h0
    have hz : ∀ i ∈ Finset.range 12, Client.chromaAccum ops mag fftSize sr i = 0 :=
      (Finset.sum_eq_zero_iff_of_nonneg
        (fun i _ => Client.chromaAccum_nonneg ops mag fftSize sr i)).mp h0
    simp only [Client.computeChroma, if_neg (by rw [h0]; norm_num : ¬Client.chromaTotal ops mag fftSize sr > 0)]
    rw [List.eq_replicate_iff]
    refine ⟨by simp, ?_⟩
    intro b hb
    obtain ⟨i, hi, rfl⟩ := List.mem_map.mp hb
    exact hz i (Finset.mem_range.mpr (List.mem_range.mp hi))

/-- Witness for C2: a spectrum with energy 2 in bin 1 (frequency 100 Hz at
`fftSize 8`, `sampleRate 800`) sums to 1; an all-zero spectrum yields the zero
vector. -/
theorem c2_chroma_sum_witness :
    (Client.computeChroma dummyOps [0, 2, 0, 0, 0] 8 800).sum = 1 ∧
    Client.computeChroma dummyOps [0, 0, 0] 8 800 = List.replicate 12 0 := by
  constructor
  · exact (c2_chroma_sum dummyOps [0, 2, 0, 0, 0] 8 800).1
      ⟨1, by norm_num, by norm_num [Client.binFreq], by norm_num [Client.binFreq], by norm_num⟩
  · refine (c2_chroma_sum dummyOps [0, 0, 0] 8 800).2 ?_
    rw [Client.chromaTotal_eq_contribSum]
    simp [Client.chromaBins, Client.chromaContrib, List.range']

/-- C3: `yinPitchDetect` returns `(none, 0)` exactly when no candidate lag
exists (insufficient samples, or no lag with `bestTau ≥ 2`), or the refined
`f0` falls outside `[50, 2000]` Hz, or the confidence `1 − d'(τ)` is below
`0.3`; consequently whenever it returns a non-`none` `f0`, that `f0` lies in
`[50, 2000]` Hz and the returned confidence lies in `[0.3, 1]`. -/
theorem c3_yin_reject_ranges (samples : List ℚ) (start frameSize : ℕ) (sr threshold : ℚ) :
    (∀ f, (Client.yinPitchDetect samples start frameSize sr threshold).1 = some f →
        50 ≤ f ∧ f ≤ 2000 ∧
        3/10 ≤ (Client.yinPitchDetect samples start frameSize sr threshold).2 ∧
        (Client.yinPitchDetect samples start frameSize sr threshold).2 ≤ 1) ∧
    ((Client.yinPitchDetect samples start frameSize sr threshold).1 = none →
        (Client.yinPitchDetect samples start frameSize sr threshold).2 = 0) ∧
    ((Client.yinPitchDetect samples start frameSize sr threshold).1 = none ↔
      (Client.yinAvailable samples.length start frameSize < frameSize ∨
        (Client.yinBest samples start (Client.yinHalfW frameSize) sr threshold).2 < 2 ∨
        Client.yinF0 samples start frameSize sr threshold < 50 ∨
        Client.yinF0 samples start frameSize sr threshold > 2000 ∨
        Client.yinConf samples start frameSize sr threshold < 3/10)) := by
  simp only [Client.yinPitchDetect]
  split_ifs with h1 h2 h3
  · refine ⟨?_, ?_, ?_⟩
    · intro f hf
      simp at hf
    · intro
      rfl
    · constructor
      · intro
        exact Or.inl h1
      · intro
        rfl
  · refine ⟨?_, ?_, ?_⟩
    · intro f hf
      simp at hf
    · intro
      rfl
    · constructor
      · intro
        exact Or.inr (Or.inl h2)
      · intro
        rfl
  · refine ⟨?_, ?_, ?_⟩
    · intro f hf
      simp at hf
    · intro
      rfl
    · constructor
      · intro
        rcases h3 with hc | hc | hc
        · exact Or.inr (Or.inr (Or.inl hc))
        · exact Or.inr (Or.inr (Or.inr (Or.inl hc)))
        · exact Or.inr (Or.inr (Or.inr (Or.inr hc)))
      · intro
        rfl
  · push_neg at h3
    obtain ⟨h50, h2000, hconf⟩ := h3
    refine ⟨?_, ?_, ?_⟩
    · intro f hf
      have hf0 : f = Client.yinF0 samples start frameSize sr threshold := by
        simpa using hf.symm
      subst hf0
      refine ⟨h50, h2000, ?_, ?_⟩
      · exact le_max_of_le_right (le_min (by norm_num) hconf)
      · exact max_le (by norm_num) (min_le_left _ _)
    · intro hc
      simp at hc
    · constructor
      · intro hc
        simp at hc
      · rintro (hc | hc | hc | hc | hc)
        · exact absurd hc h1
        · exact absurd hc h2
        · exact absurd hc (by linarith)
        · exact absurd hc (by linarith)
        · exact absurd hc (by linarith)

/-- Witness for C3 on an empty buffer (insufficient samples): the result is
`(none, 0)`. -/
theorem c3_yin_reject_ranges_witness :
    (Client.yinPitchDetect [] 0 8 8000 (3/20)).1 = none ∧
    (Client.yinPitchDetect [] 0 8 8000 (3/20)).2 = 0 := by
  have h := c3_yin_reject_ranges [] 0 8 8000 (3/20)
  have hnone : (Client.yinPitchDetect [] 0 8 8000 (3/20)).1 = none :=
    h.2.2.mpr (Or.inl (by decide))
  exact ⟨hnone, h.2.1 hnone⟩

/-- C8: for at least 2 frames, when the eigendecomposition fails (throws) or
returns an eigenvector matrix that is not 40×40, `applyPCA` does not abort: it
returns every frame with `pcaCoordinates` equal to that frame's first three
MFCC values, each scaled by `0.1`. -/
theorem c8_applyPCA_fallback (evd : List (List ℚ) → Option ServerB.EvdResult)
    (frames : List ServerB.AudioFrameB) (hlen : 2 ≤ frames.length)
    (hfail : evd (ServerB.covOf frames) = none ∨
      ∀ r, evd (ServerB.covOf frames) = some r →
        (r.rows ≠ ServerB.PCA_MFCC_DIM ∨ r.columns ≠ ServerB.PCA_MFCC_DIM)) :
    ServerB.applyPCA evd frames = frames.map (fun f =>
      { f with pcaCoordinates := some (
          f.mfccs.getD 0 0 * (1/10), f.mfccs.getD 1 0 * (1/10), f.mfccs.getD 2 0 * (1/10)) }) := by
  have hfb : ServerB.fallbackPcaCoordinates frames = frames.map (fun f =>
      { f with pcaCoordinates := some (
          f.mfccs.getD 0 0 * (1/10), f.mfccs.getD 1 0 * (1/10), f.mfccs.getD 2 0 * (1/10)) }) := rfl
  rw [← hfb]
  unfold ServerB.applyPCA
  rw [if_neg (by omega), if_neg (by omega)]
  rcases hev : evd (ServerB.covOf frames) with _ | r
  · simp
  · rcases hfail with hnone | hdims
    · rw [hev] at hnone
      cases hnone
    · have hd := hdims r hev
      simp only [if_pos hd]

/-- Witness for C8 on two concrete frames with a failing decomposition. -/
theorem c8_applyPCA_fallback_witness :
    ServerB.applyPCA (fun _ => none)
      [⟨0, [1, 2, 3], none, none, none⟩, ⟨1, [4, 5, 6], none, none, none⟩] =
    ([⟨0, [1, 2, 3], none, none, none⟩,
      ⟨1, [4, 5, 6], none, none, none⟩] : List ServerB.AudioFrameB).map (fun f =>
      { f with pcaCoordinates := some (
          f.mfccs.getD 0 0 * (1/10), f.mfccs.getD 1 0 * (1/10), f.mfccs.getD 2 0 * (1/10)) }) :=
  c8_applyPCA_fallback (fun _ => none) _ (by norm_num) (Or.inl rfl)

/-- C7: for every non-empty frame list, each of the three coordinate axes of
the positions returned by `computePCA` is min-max rescaled into `[−5, 5]`
whenever that axis's projected values have nonzero range (every output
coordinate on the axis lies in `[−5, 5]`, and equals the min-max formula
`((v − min)/range − ½)·2·5`); when an axis's range is zero, its raw projected
values are left unchanged. -/
theorem c7_computePCA_rescale (ops : FloatOps) (frames : List Client.FrameFeatures)
    (hne : frames ≠ []) :
    ∀ k : Fin 3,
      (Client.axisMin (Client.pcaRawPositions ops frames) k <
          Client.axisMax (Client.pcaRawPositions ops frames) k →
        (∀ p ∈ (Client.computePCA ops frames).positions, -5 ≤ p k ∧ p k ≤ 5) ∧
        (∀ i, i < (Client.pcaRawPositions ops frames).length →
          ((Client.computePCA ops frames).positions.getD i (fun _ => 0)) k =
            ((((Client.pcaRawPositions ops frames).getD i (fun _ => 0)) k -
                Client.axisMin (Client.pcaRawPositions ops frames) k) /
              (Client.axisMax (Client.pcaRawPositions ops frames) k -
                Client.axisMin (Client.pcaRawPositions ops frames) k) - 1/2) * 2 * 5)) ∧
      (Client.axisMin (Client.pcaRawPositions ops frames) k =
          Client.axisMax (Client.pcaRawPositions ops frames) k →
        ∀ i, i < (Client.pcaRawPositions ops frames).length →
          ((Client.computePCA ops frames).positions.getD i (fun _ => 0)) k =
            ((Client.pcaRawPositions ops frames).getD i (fun _ => 0)) k) := by
  intro k
  have hpos : (Client.computePCA ops frames).positions
      = Client.rescalePositions (Client.pcaRawPositions ops frames) := by
    simp only [Client.computePCA, if_neg hne]
  set raw := Client.pcaRawPositions ops frames with hraw
  set mn := Client.axisMin raw k with hmn
  set mx := Client.axisMax raw k with hmx
  have hgetD : ∀ i, i < raw.length →
      (Client.rescalePositions raw).getD i (fun _ => 0)
        = (fun p (k2 : Fin 3) =>
            if Client.axisMax raw k2 - Client.axisMin raw k2 > 0 then
              ((p k2 - Client.axisMin raw k2) /
                (Client.axisMax raw k2 - Client.axisMin raw k2) - 1/2) * 2 * 5
            else p k2) (raw.getD i (fun _ => 0)) := by
    intro i hi
    simp only [Client.rescalePositions]
    rw [List.getD_eq_getElem?_getD, List.getD_eq_getElem?_getD, List.getElem?_map,
      List.getElem?_eq_getElem hi]
    rfl
  constructor
  · intro hlt
    have hr : mx - mn > 0 := sub_pos.mpr hlt
    constructor
    · intro p hp
      rw [hpos] at hp
      simp only [Client.rescalePositions, List.mem_map] at hp
      obtain ⟨q, hq, rfl⟩ := hp
      simp only []
      rw [if_pos hr]
      have hql : mn ≤ q k := Client.axisMin_le hq k
      have hqu : q k ≤ mx := Client.le_axisMax hq k
      have ht0 : 0 ≤ (q k - mn) / (mx - mn) := div_nonneg (by linarith) (le_of_lt hr)
      have ht1 : (q k - mn) / (mx - mn) ≤ 1 := (div_le_one hr).mpr (by linarith)
      constructor <;> nlinarith
    · intro i hi
      rw [hpos, hgetD i hi]
      simp only []
      rw [if_pos hr]
  · intro heq i hi
    rw [hpos, hgetD i hi]
    simp only []
    rw [if_neg (by rw [← hmn, ← hmx, heq]; simp)]

/-- Witness for C7 on a single degenerate frame: every axis has zero range, so
coordinate 0 of position 0 is the raw projected value. -/
theorem c7_computePCA_rescale_witness :
    (([⟨0, [], [], none, 0, 0, 0, 0, 0, 0⟩] : List Client.FrameFeatures) ≠ []) ∧
    ((Client.computePCA dummyOps [⟨0, [], [], none, 0, 0, 0, 0, 0, 0⟩]).positions.getD 0
        (fun _ => 0)) 0 =
      ((Client.pcaRawPositions dummyOps [⟨0, [], [], none, 0, 0, 0, 0, 0, 0⟩]).getD 0
        (fun _ => 0)) 0 := by
  have hne : ([⟨0, [], [], none, 0, 0, 0, 0, 0, 0⟩] : List Client.FrameFeatures) ≠ [] := by
    simp
  obtain ⟨p, hp⟩ : ∃ p, Client.pcaRawPositions dummyOps
      [(⟨0, [], [], none, 0, 0, 0, 0, 0, 0⟩ : Client.FrameFeatures)] = [p] := ⟨_, rfl⟩
  have hlen : 0 < (Client.pcaRawPositions dummyOps
      [(⟨0, [], [], none, 0, 0, 0, 0, 0, 0⟩ : Client.FrameFeatures)]).length := by
    rw [hp]
    simp
  have heq : Client.axisMin (Client.pcaRawPositions dummyOps
        [(⟨0, [], [], none, 0, 0, 0, 0, 0, 0⟩ : Client.FrameFeatures)]) 0
      = Client.axisMax (Client.pcaRawPositions dummyOps
        [(⟨0, [], [], none, 0, 0, 0, 0, 0, 0⟩ : Client.FrameFeatures)]) 0 := by
    rw [hp]
    rfl
  exact ⟨hne, ((c7_computePCA_rescale dummyOps _ hne) 0).2 heq 0 hlen⟩

/-- C1: for every sample buffer with at least `frameSize` samples and every
configuration with positive hop size and sample rate, the feature-extraction
loop produces exactly `⌊(numSamples − frameSize)/hopSize⌋` frames, frame `i`
having time `i·hopSize/sampleRate`, so the output frames are strictly
increasing (hence non-decreasing) in time. -/
theorem c1_extract_count_times (ops : FloatOps) (cfg : Client.AnalysisConfig)
    (samples : List ℚ) (sr : ℚ) (h1 : cfg.frameSize ≤ samples.length)
    (h2 : 0 < cfg.hopSize) (h3 : 0 < sr) :
    (Client.extractFeatures ops cfg samples sr).length
        = (samples.length - cfg.frameSize) / cfg.hopSize ∧
    (∀ i (hi : i < (Client.extractFeatures ops cfg samples sr).length),
      ((Client.extractFeatures ops cfg samples sr).get ⟨i, hi⟩).time
        = (i * cfg.hopSize : ℚ) / sr) ∧
    ((Client.extractFeatures ops cfg samples sr).map (fun f => f.time)).Pairwise (· < ·) := by
  have hmono : ∀ a b : ℕ, a < b →
      ((a * cfg.hopSize : ℕ) : ℚ) / sr < ((b * cfg.hopSize : ℕ) : ℚ) / sr := by
    intro a b hab
    apply div_lt_div_of_pos_right _ h3
    push_cast
    have hh : (0 : ℚ) < cfg.hopSize := by exact_mod_cast h2
    exact mul_lt_mul_of_pos_right (by exact_mod_cast hab) hh
  refine ⟨?_, ?_, ?_⟩
  · simp only [Client.extractFeatures, List.length_map, List.length_range]
    unfold Client.numFramesZ
    have hcast : ((samples.length : ℤ) - cfg.frameSize)
        = ((samples.length - cfg.frameSize : ℕ) : ℤ) := by omega
    rw [hcast, ← Int.ofNat_fdiv]
    exact Int.toNat_natCast _
  · intro i hi
    have hget : (Client.extractFeatures ops cfg samples sr).get ⟨i, hi⟩
        = Client.frameAt ops cfg samples sr i := by
      simp [Client.extractFeatures]
    rw [hget]
    simp only [Client.frameAt]
    push_cast
    ring_nf
  · simp only [Client.extractFeatures, List.map_map]
    refine List.Pairwise.map _ ?_ (List.pairwise_lt_range _)
    intro a b hab
    simp only [Function.comp_apply, Client.frameAt]
    exact hmono a b hab

/-- Witness for C1: at the default configuration on a 2560-sample buffer at
44100 Hz, exactly `⌊(2560 − 2048)/512⌋ = 1` frame is produced and the times
are strictly increasing. -/
theorem c1_extract_count_times_witness :
    Client.defaultConfig.frameSize ≤ (List.replicate 2560 (0:ℚ)).length ∧
    0 < Client.defaultConfig.hopSize ∧ (0:ℚ) < 44100 ∧
    (Client.extractFeatures dummyOps Client.defaultConfig (List.replicate 2560 0) 44100).length
      = ((List.replicate 2560 (0:ℚ)).length - Client.defaultConfig.frameSize) /
          Client.defaultConfig.hopSize ∧
    ((Client.extractFeatures dummyOps Client.defaultConfig
        (List.replicate 2560 0) 44100).map (fun f => f.time)).Pairwise (· < ·) := by
  have hfs : Client.defaultConfig.frameSize ≤ (List.replicate 2560 (0:ℚ)).length := by
    rw [List.length_replicate]
    norm_num [Client.defaultConfig]
  have h := c1_extract_count_times dummyOps Client.defaultConfig (List.replicate 2560 0) 44100
    hfs (by norm_num [Client.defaultConfig]) (by norm_num)
  exact ⟨hfs, by norm_num [Client.defaultConfig], by norm_num, h.1, h.2.2⟩

namespace ServerA

/-- The segmenter step either keeps the phrase start marker or moves it to the
current frame's time. -/
theorem segStep_verseStart (th : ℚ) (st : SegState) (f : AudioFrame) :
    (segStep th st f).verseStart = st.verseStart ∨ (segStep th st f).verseStart = f.t := by
  simp only [segStep]
  split_ifs <;> first | (left; rfl) | (right; rfl) | (exfalso; tauto) | simp

/-- The segmenter step either keeps the verse list or appends the one closed
phrase, and a phrase is appended only when its duration is at least `0.3`. -/
theorem segStep_verses (th : ℚ) (st : SegState) (f : AudioFrame) :
    (segStep th st f).verses = st.verses ∨
    ((segStep th st f).verses
        = st.verses ++ [⟨st.verseStart, st.silenceStart, st.verseFrames⟩] ∧
      3/10 ≤ st.silenceStart - st.verseStart) := by
  simp only [segStep]
  split_ifs <;>
    first
      | (exfalso; tauto)
      | (left; rfl)
      | (left; simp; done)
      | (right; exact ⟨by simp, by assumption⟩)

/-- One segmenter step preserves: (a) every pushed verse has positive length
at least `0.3`; (b) the phrase start marker satisfies any predicate `P` that
holds of it and of every frame time. -/
theorem segStep_pres (th : ℚ) (P : ℚ → Prop) (st : SegState) (f : AudioFrame)
    (hP : P st.verseStart) (hf : P f.t)
    (h1 : ∀ v ∈ st.verses, v.start < v.stop ∧ 3/10 ≤ v.stop - v.start) :
    P ((segStep th st f).verseStart) ∧
    ∀ v ∈ (segStep th st f).verses, v.start < v.stop ∧ 3/10 ≤ v.stop - v.start := by
  constructor
  · rcases segStep_verseStart th st f with h | h <;> rw [h]
    · exact hP
    · exact hf
  · intro v hv
    rcases segStep_verses th st f with h | ⟨h, hD⟩
    · rw [h] at hv
      exact h1 v hv
    · rw [h] at hv
      rcases List.mem_append.mp hv with hv1 | hv2
      · exact h1 v hv1
      · have hveq : v = ⟨st.verseStart, st.silenceStart, st.verseFrames⟩ :=
          List.mem_singleton.mp hv2
        subst hveq
        constructor
        · show st.verseStart < st.silenceStart
          linarith
        · show 3/10 ≤ st.silenceStart - st.verseStart
          exact hD

/-- Folding the segmenter over any frame list preserves the two segment
invariants. -/
theorem segFold_pres (th : ℚ) (P : ℚ → Prop) (fs : List AudioFrame) (st : SegState)
    (hP : P st.verseStart) (hfs : ∀ f ∈ fs, P f.t)
    (h1 : ∀ v ∈ st.verses, v.start < v.stop ∧ 3/10 ≤ v.stop - v.start) :
    P ((fs.foldl (segStep th) st).verseStart) ∧
    ∀ v ∈ (fs.foldl (segStep th) st).verses, v.start < v.stop ∧ 3/10 ≤ v.stop - v.start := by
  induction fs generalizing st with
  | nil => exact ⟨hP, h1⟩
  | cons f fs ih =>
    simp only [List.foldl_cons]
    have hstep := segStep_pres th P st f hP (hfs f (List.mem_cons_self f fs)) h1
    exact ih (segStep th st f) hstep.1 (fun g hg => hfs g (List.mem_cons_of_mem f hg)) hstep.2

/-- Every fallback segment is nonempty in time, and when at least two fallback
segments are emitted each has length `duration / numSegments ≥ 5/4`. -/
theorem fallbackVerses_facts (frames : List AudioFrame) (duration : ℚ)
    (hd : 0 < duration) :
    (∀ seg ∈ fallbackVerses frames duration, seg.start < seg.stop) ∧
    (2 ≤ (fallbackVerses frames duration).length →
      ∀ seg ∈ fallbackVerses frames duration, 3/10 ≤ seg.stop - seg.start) := by
  have hk1 : (1 : ℤ) ≤ fallbackK duration := by
    unfold fallbackK
    have hc : (0 : ℤ) < ⌈duration / 5⌉ := Int.ceil_pos.mpr (by positivity)
    omega
  have hk0 : (0 : ℚ) < ((fallbackK duration : ℤ) : ℚ) := by exact_mod_cast hk1
  have hsd0 : 0 < fallbackSegDuration duration := by
    unfold fallbackSegDuration
    positivity
  have hdk : duration / fallbackSegDuration duration = ((fallbackK duration : ℤ) : ℚ) := by
    unfold fallbackSegDuration
    rw [div_div_eq_mul_div, mul_comm, mul_div_assoc, div_self (ne_of_gt hd), mul_one]
  have hnum : fallbackNumSegments duration = fallbackK duration := by
    unfold fallbackNumSegments
    rw [hdk]
    exact Int.ceil_intCast _
  have hmem : ∀ seg ∈ fallbackVerses frames duration,
      ∃ i : ℕ, (i : ℤ) < fallbackK duration ∧
        seg.start = (i : ℚ) * fallbackSegDuration duration ∧
        seg.stop = min (((i : ℚ) + 1) * fallbackSegDuration duration) duration ∧
        ∃ f ∈ frames, seg.start ≤ f.t ∧ f.t < seg.stop := by
    intro seg hseg
    unfold fallbackVerses at hseg
    rw [List.mem_filterMap] at hseg
    obtain ⟨i, hi, hbody⟩ := hseg
    rw [List.mem_range, hnum] at hi
    simp only [fallbackBody] at hbody
    split_ifs at hbody with hne
    · obtain ⟨f, hfmem⟩ := List.exists_mem_of_ne_nil _ hne
      rw [List.mem_filter] at hfmem
      obtain ⟨hf1, hf2⟩ := hfmem
      have hcond := of_decide_eq_true hf2
      obtain rfl := Option.some_inj.mp hbody
      exact ⟨i, by omega, rfl, rfl, f, hf1, hcond.1, hcond.2⟩
  constructor
  · intro seg hseg
    obtain ⟨i, _, _, _, f, _, hle, hlt⟩ := hmem seg hseg
    exact lt_of_le_of_lt hle hlt
  · intro h2 seg hseg
    have hn2 : (2 : ℤ) ≤ fallbackK duration := by
      have hlen : (fallbackVerses frames duration).length
          ≤ (fallbackNumSegments duration).toNat := by
        unfold fallbackVerses
        calc (List.filterMap (fallbackBody frames duration) _).length
            ≤ (List.range (fallbackNumSegments duration).toNat).length :=
              List.length_filterMap_le _ _
          _ = (fallbackNumSegments duration).toNat := List.length_range _
      rw [hnum] at hlen
      omega
    have hd5 : 5 < duration := by
      have hc1 : (1 : ℤ) < ⌈duration / 5⌉ := by
        have : (2 : ℤ) ≤ min 4 ⌈duration / 5⌉ := hn2
        omega
      have h15 : (1 : ℚ) < duration / 5 := by exact_mod_cast Int.lt_ceil.mp hc1
      linarith
    have hk4 : ((fallbackK duration : ℤ) : ℚ) ≤ 4 := by
      have : fallbackK duration ≤ 4 := min_le_left _ _
      exact_mod_cast this
    have hsdbig : 5/4 ≤ fallbackSegDuration duration := by
      unfold fallbackSegDuration
      rw [le_div_iff hk0]
      nlinarith
    obtain ⟨i, hik, hstart, hstop, -⟩ := hmem seg hseg
    have hik2 : ((i : ℚ) + 1) ≤ ((fallbackK duration : ℤ) : ℚ) := by
      have : (i : ℤ) + 1 ≤ fallbackK duration := by omega
      exact_mod_cast this
    have hib : ((i : ℚ) + 1) * fallbackSegDuration duration ≤ duration := by
      calc ((i : ℚ) + 1) * fallbackSegDuration duration
          ≤ ((fallbackK duration : ℤ) : ℚ) * fallbackSegDuration duration := by nlinarith
        _ = duration := by
            unfold fallbackSegDuration
            field_simp
    rw [hstart, hstop, min_eq_left hib]
    nlinarith

end ServerA

/-- C5 (amended): for frame times inside `(−∞, duration)` and a positive
duration, every segment emitted by the segmenter — silence-based path and
fixed-interval fallback alike — satisfies `start < end`, and every segment
except possibly the final one satisfies `end − start ≥ 0.3 s`.  (The final
trailing segment, which extends to track end, can be shorter than `0.3 s`;
see the counterexample.) -/
theorem c5_segment_bounds (frames : List ServerA.AudioFrame) (duration : ℚ)
    (hd : 0 < duration) (ht : ∀ f ∈ frames, f.t < duration) :
    (∀ seg ∈ ServerA.segmentIntoVerses frames duration, seg.start < seg.stop) ∧
    (∀ seg ∈ (ServerA.segmentIntoVerses frames duration).dropLast,
      3/10 ≤ seg.stop - seg.start) := by
  by_cases hfe : frames = []
  · subst hfe
    simp [ServerA.segmentIntoVerses]
  · simp only [ServerA.segmentIntoVerses, if_neg hfe]
    by_cases hsv : ServerA.silenceVerses frames duration = []
    · rw [if_pos hsv]
      have hfacts := ServerA.fallbackVerses_facts frames duration hd
      refine ⟨hfacts.1, ?_⟩
      intro seg hseg
      have hmem : seg ∈ ServerA.fallbackVerses frames duration :=
        List.dropLast_subset _ hseg
      have hlen2 : 2 ≤ (ServerA.fallbackVerses frames duration).length := by
        have hne : (ServerA.fallbackVerses frames duration).dropLast ≠ [] :=
          List.ne_nil_of_mem hseg
        have := List.length_dropLast (ServerA.fallbackVerses frames duration)
        have hpos : 0 < (ServerA.fallbackVerses frames duration).dropLast.length :=
          List.length_pos.mpr hne
        omega
      exact hfacts.2 hlen2 seg hmem
    · rw [if_neg hsv]
      have hkey := ServerA.segFold_pres (ServerA.silenceThreshold frames)
        (fun x => x < duration) frames ⟨[], 0, [], false, 0⟩ hd ht
        (by intro v hv; cases hv)
      set st := ServerA.segLoop (ServerA.silenceThreshold frames) frames with hst
      have hkey2 : st.verseStart < duration ∧
          ∀ v ∈ st.verses, v.start < v.stop ∧ 3/10 ≤ v.stop - v.start := by
        rw [hst]
        exact hkey
      constructor
      · intro seg hseg
        simp only [ServerA.silenceVerses, ← hst] at hseg
        rcases List.mem_append.mp hseg with hm | hm
        · exact (hkey2.2 seg hm).1
        · split_ifs at hm with hvf
          · obtain rfl := List.mem_singleton.mp hm
            exact hkey2.1
          · cases hm
      · intro seg hseg
        simp only [ServerA.silenceVerses, ← hst] at hseg
        split_ifs at hseg with hvf
        · rw [List.dropLast_concat] at hseg
          exact (hkey2.2 seg hseg).2
        · rw [List.append_nil] at hseg
          exact (hkey2.2 seg (List.dropLast_subset _ hseg)).2

/-- Counterexample for C5 as stated: a uniformly loud track of duration
`0.1 s` yields a single (trailing) segment `[0, 0.1)` of length `0.1 < 0.3`,
violating the claimed minimum phrase duration. -/
theorem c5_counterexample :
    ServerA.segmentIntoVerses [⟨0, 0, 0, 0, 1, 0, 0, 0, 0, 0, 0, 0, 0, 0, 0⟩] (1/10)
      = [⟨0, 1/10, [⟨0, 0, 0, 0, 1, 0, 0, 0, 0, 0, 0, 0, 0, 0, 0⟩]⟩] ∧
    ¬(3/10 ≤ (1/10 : ℚ) - 0) := by
  constructor
  · norm_num [ServerA.segmentIntoVerses, ServerA.silenceVerses, ServerA.segLoop,
      ServerA.segStep, ServerA.silenceThreshold, spreadMax]
  · norm_num

namespace ServerA

/-- The "dropped as noise" event of the segmenter: a phrase is closed by a
silence run longer than `0.2 s` but its duration is below the `0.3 s`
minimum, so it is discarded (and the phrase start marker still advances). -/
def dropCond (th : ℚ) (st : SegState) (f : AudioFrame) : Prop :=
  ¬(f.amplitude < th) ∧ st.inSilence = true ∧ f.t - st.silenceStart > 1/5 ∧
    st.verseFrames ≠ [] ∧ st.silenceStart - st.verseStart < 3/10

/-- No drop event occurs anywhere along the segmenter's run from state `st`
over the given frames. -/
def segRunNoDrop (th : ℚ) : SegState → List AudioFrame → Prop
  | _, [] => True
  | st, f :: fs => ¬dropCond th st f ∧ segRunNoDrop th (segStep th st f) fs

/-- No phrase candidate is dropped as noise during the segmenter's run on
`frames` (from the initial state, at the run's silence threshold). -/
def noDropRun (frames : List AudioFrame) : Prop :=
  segRunNoDrop (silenceThreshold frames) ⟨[], 0, [], false, 0⟩ frames

/-- Case analysis of one segmenter step: either the verse list and start
marker are both unchanged, or a phrase-closing event fired (the frame is
non-silent, a long-enough silence run is open, and frames are pending), the
start marker moves to the current frame's time, and the pending phrase is
either pushed (duration `≥ 0.3`) or dropped (duration `< 0.3`). -/
theorem segStep_cases (th : ℚ) (st : SegState) (f : AudioFrame) :
    ((segStep th st f).verses = st.verses ∧
      (segStep th st f).verseStart = st.verseStart) ∨
    (¬(f.amplitude < th) ∧ st.inSilence = true ∧ f.t - st.silenceStart > 1/5 ∧
      st.verseFrames ≠ [] ∧ (segStep th st f).verseStart = f.t ∧
      ((3/10 ≤ st.silenceStart - st.verseStart ∧
          (segStep th st f).verses
            = st.verses ++ [⟨st.verseStart, st.silenceStart, st.verseFrames⟩]) ∨
        (st.silenceStart - st.verseStart < 3/10 ∧
          (segStep th st f).verses = st.verses))) := by
  by_cases hSil : f.amplitude < th
  · left
    constructor <;> (simp only [segStep]; split_ifs <;> first | rfl | tauto | (simp; done) | simp)
  · by_cases hIn : st.inSilence = true
    · by_cases hC : f.t - st.silenceStart > 1/5 ∧ st.verseFrames ≠ []
      · by_cases hD : 3/10 ≤ st.silenceStart - st.verseStart
        · refine Or.inr ⟨hSil, hIn, hC.1, hC.2, ?_, Or.inl ⟨hD, ?_⟩⟩ <;>
            (simp only [segStep]; split_ifs <;> first | rfl | tauto | (simp; done) | simp)
        · refine Or.inr ⟨hSil, hIn, hC.1, hC.2, ?_, Or.inr ⟨by linarith, ?_⟩⟩ <;>
            (simp only [segStep]; split_ifs <;> first | rfl | tauto | (simp; done) | simp)
      · left
        constructor <;> (simp only [segStep]; split_ifs <;> first | rfl | tauto | (simp; done) | simp)
    · left
      constructor <;> (simp only [segStep]; split_ifs <;> first | rfl | tauto | (simp; done) | simp)

/-- Under a drop-free run, the segmenter's fold preserves: if no phrase has
been pushed the start marker is still `0`, and the first pushed phrase starts
at `0`. -/
theorem segFold_noDrop (th : ℚ) (fs : List AudioFrame) (st : SegState)
    (hnd : segRunNoDrop th st fs)
    (h1 : st.verses = [] → st.verseStart = 0)
    (h2 : ∀ v, st.verses.head? = some v → v.start = 0) :
    ((fs.foldl (segStep th) st).verses = [] → (fs.foldl (segStep th) st).verseStart = 0) ∧
    (∀ v, (fs.foldl (segStep th) st).verses.head? = some v → v.start = 0) := by
  induction fs generalizing st with
  | nil => exact ⟨h1, h2⟩
  | cons f fs ih =>
    simp only [List.foldl_cons]
    simp only [segRunNoDrop] at hnd
    obtain ⟨hndf, hndr⟩ := hnd
    refine ih (segStep th st f) hndr ?_ ?_
    · intro hv
      rcases segStep_cases th st f with ⟨hvs, hst⟩ | ⟨hns, hin, hc1, hc2, hvst, hrest⟩
      · rw [hst]
        exact h1 (by rw [← hvs]; exact hv)
      · rcases hrest with ⟨hD, hpush⟩ | ⟨hlt, hsame⟩
        · rw [hpush] at hv
          exact absurd hv (by simp)
        · exact absurd ⟨hns, hin, hc1, hc2, hlt⟩ hndf
    · intro v hv
      rcases segStep_cases th st f with ⟨hvs, hst⟩ | ⟨hns, hin, hc1, hc2, hvst, hrest⟩
      · rw [hvs] at hv
        exact h2 v hv
      · rcases hrest with ⟨hD, hpush⟩ | ⟨hlt, hsame⟩
        · rw [hpush, List.head?_append] at hv
          cases hsv : st.verses with
          | nil =>
            rw [hsv] at hv
            simp at hv
            rw [← hv]
            exact h1 hsv
          | cons v0 rest =>
            rw [hsv] at hv
            simp only [List.head?_cons, Option.or_some] at hv
            exact h2 v (by rw [hsv, List.head?_cons, ← Option.some_inj.mp hv])
        · exact absurd ⟨hns, hin, hc1, hc2, hlt⟩ hndf

end ServerA

/-- C10 (amended): whenever the silence-based segmenter emits at least one
phrase AND no phrase candidate is dropped as noise during the run, the first
emitted phrase has start time `0` — leading silence is included in the first
segment — because the phrase start marker is initialized to `0` and advanced
only when a candidate phrase is closed.  (When a candidate IS dropped, the
marker still advances, and the first emitted phrase can start later than `0`;
see the counterexample.) -/
theorem c10_first_phrase_start (frames : List ServerA.AudioFrame) (duration : ℚ)
    (hnd : ServerA.noDropRun frames)
    (hne : ServerA.silenceVerses frames duration ≠ []) :
    ((ServerA.segmentIntoVerses frames duration).headD default).start = 0 := by
  have hfe : frames ≠ [] := by
    intro h
    subst h
    exact hne (by simp [ServerA.silenceVerses, ServerA.segLoop])
  simp only [ServerA.segmentIntoVerses, if_neg hfe, if_neg hne]
  have hfold := ServerA.segFold_noDrop (ServerA.silenceThreshold frames) frames
    ⟨[], 0, [], false, 0⟩ hnd (fun _ => rfl) (by intro v hv; cases hv)
  set st := ServerA.segLoop (ServerA.silenceThreshold frames) frames with hst
  have hfold2 : (st.verses = [] → st.verseStart = 0) ∧
      (∀ v, st.verses.head? = some v → v.start = 0) := by
    rw [hst]
    exact hfold
  simp only [ServerA.silenceVerses, ← hst]
  cases hsv : st.verses with
  | nil =>
    split_ifs with hvf
    · simp only [List.nil_append, List.headD_cons]
      exact hfold2.1 hsv
    · exfalso
      apply hne
      simp only [ServerA.silenceVerses, ← hst, hsv, if_neg hvf]
      simp
  | cons v0 rest =>
    have hhead : ∀ T : List ServerA.Segment, ((v0 :: rest) ++ T).headD default = v0 := by
      intro T
      simp
    split_ifs with hvf <;>
      (rw [hhead]
       exact hfold2.2 v0 (by rw [hsv]; rfl))

/-- Counterexample for C10 as stated: a short loud blip at `t = 0` is dropped
as noise when the silence run `[0.05, 0.3)` closes it (duration `0.05 <
0.3`), the start marker advances to `0.3`, and the single emitted phrase
starts at `0.3 ≠ 0` even though the silence-based path emitted it. -/
theorem c10_counterexample :
    ServerA.silenceVerses
      [⟨0, 0, 0, 0, 1, 0, 0, 0, 0, 0, 0, 0, 0, 0, 0⟩,
       ⟨1/20, 0, 0, 0, 0, 0, 0, 0, 0, 0, 0, 0, 0, 0, 0⟩,
       ⟨3/10, 0, 0, 0, 1, 0, 0, 0, 0, 0, 0, 0, 0, 0, 0⟩] 1 ≠ [] ∧
    ((ServerA.segmentIntoVerses
      [⟨0, 0, 0, 0, 1, 0, 0, 0, 0, 0, 0, 0, 0, 0, 0⟩,
       ⟨1/20, 0, 0, 0, 0, 0, 0, 0, 0, 0, 0, 0, 0, 0, 0⟩,
       ⟨3/10, 0, 0, 0, 1, 0, 0, 0, 0, 0, 0, 0, 0, 0, 0⟩] 1).headD default).start = 3/10 := by
  constructor
  · norm_num [ServerA.silenceVerses, ServerA.segLoop, ServerA.segStep,
      ServerA.silenceThreshold, spreadMax]
  · norm_num [ServerA.segmentIntoVerses, ServerA.silenceVerses, ServerA.segLoop,
      ServerA.segStep, ServerA.silenceThreshold, spreadMax]
    all_goals simp

/-- Witness for C10 on a drop-free run: two loud frames, trailing phrase
`[0, 1)`; the first emitted phrase starts at `0`. -/
theorem c10_first_phrase_start_witness :
    ((ServerA.segmentIntoVerses
      [⟨0, 0, 0, 0, 1, 0, 0, 0, 0, 0, 0, 0, 0, 0, 0⟩,
       ⟨1/2, 0, 0, 0, 1, 0, 0, 0, 0, 0, 0, 0, 0, 0, 0⟩] 1).headD default).start = 0 := by
  refine c10_first_phrase_start _ 1 ?_ ?_
  · norm_num [ServerA.noDropRun, ServerA.segRunNoDrop, ServerA.dropCond,
      ServerA.segStep, ServerA.silenceThreshold, spreadMax]
  · norm_num [ServerA.silenceVerses, ServerA.segLoop, ServerA.segStep,
      ServerA.silenceThreshold, spreadMax]
    all_goals simp

/-- Witness for C5 on a single loud frame and duration `0.1`: every emitted
segment has `start < end`, and all but the final one (here: none) meet the
`0.3 s` minimum. -/
theorem c5_segment_bounds_witness :
    (∀ seg ∈ ServerA.segmentIntoVerses
        [⟨0, 0, 0, 0, 1, 0, 0, 0, 0, 0, 0, 0, 0, 0, 0⟩] (1/10), seg.start < seg.stop) ∧
    (∀ seg ∈ (ServerA.segmentIntoVerses
        [⟨0, 0, 0, 0, 1, 0, 0, 0, 0, 0, 0, 0, 0, 0, 0⟩] (1/10)).dropLast,
      3/10 ≤ seg.stop - seg.start) := by
  refine c5_segment_bounds _ _ (by norm_num) ?_
  intro f hf
  rw [List.mem_singleton] at hf
  subst hf
  norm_num

namespace ServerA

/-- Every candidate neighbor of point `i` is a different index. -/
theorem knnCandidates_ne (ops : FloatOps) (points : List VisualizationPoint)
    (k i j : ℕ) (hj : j ∈ knnCandidates ops points k i) : j ≠ i := by
  unfold knnCandidates at hj
  rw [List.mem_map] at hj
  obtain ⟨d, hd, rfl⟩ := hj
  have hd2 : d ∈ stableSortBy (fun a b => decide (a.2 ≤ b.2)) (knnDistances ops points i) :=
    List.mem_of_mem_take hd
  rw [mem_stableSortBy] at hd2
  unfold knnDistances at hd2
  rw [List.mem_map] at hd2
  obtain ⟨j2, hj2, hjeq⟩ := hd2
  rw [List.mem_filter] at hj2
  have := of_decide_eq_true hj2.2
  rw [← hjeq]
  exact this

/-- The edge-set invariant of the k-NN builder: all pushed edges are
non-loops, their unordered keys are pairwise distinct, and every pushed
edge's key has been recorded in the seen set. -/
def KnnInv (st : KnnState) : Prop :=
  (∀ e ∈ st.edges, e.1 ≠ e.2) ∧
  st.edges.Pairwise (fun a b => edgeKey a.1 a.2 ≠ edgeKey b.1 b.2) ∧
  (∀ e ∈ st.edges, edgeKey e.1 e.2 ∈ st.seen)

theorem knnInsert_inv (st : KnnState) (i j : ℕ) (hij : j ≠ i) (h : KnnInv st) :
    KnnInv (knnInsert st i j) := by
  obtain ⟨h1, h2, h3⟩ := h
  unfold knnInsert
  split_ifs with hseen
  · exact ⟨h1, h2, h3⟩
  · refine ⟨?_, ?_, ?_⟩
    · intro e he
      rcases List.mem_append.mp he with he1 | he2
      · exact h1 e he1
      · obtain rfl := List.mem_singleton.mp he2
        exact fun hcontra => hij hcontra.symm
    · rw [List.pairwise_append]
      refine ⟨h2, List.pairwise_singleton _ _, ?_⟩
      intro a ha b hb
      obtain rfl := List.mem_singleton.mp hb
      intro hkey
      exact hseen (hkey ▸ h3 a ha)
    · intro e he
      rcases List.mem_append.mp he with he1 | he2
      · exact List.mem_cons_of_mem _ (h3 e he1)
      · obtain rfl := List.mem_singleton.mp he2
        exact List.mem_cons_self _ _

theorem knnInnerFold_inv (ops : FloatOps) (points : List VisualizationPoint)
    (k i : ℕ) (cands : List ℕ) (hcands : ∀ j ∈ cands, j ≠ i) (st : KnnState)
    (h : KnnInv st) :
    KnnInv (cands.foldl (fun st2 j => knnInsert st2 i j) st) := by
  induction cands generalizing st with
  | nil => exact h
  | cons c cs ih =>
    simp only [List.foldl_cons]
    exact ih (fun j hj => hcands j (List.mem_cons_of_mem c hj)) _
      (knnInsert_inv st i c (hcands c (List.mem_cons_self c cs)) h)

theorem knnOuterFold_inv (ops : FloatOps) (points : List VisualizationPoint)
    (k : ℕ) (idxs : List ℕ) (st : KnnState) (h : KnnInv st) :
    KnnInv (idxs.foldl (fun st2 i =>
      (knnCandidates ops points k i).foldl (fun st3 j => knnInsert st3 i j) st2) st) := by
  induction idxs generalizing st with
  | nil => exact h
  | cons i is ih =>
    simp only [List.foldl_cons]
    exact ih _ (knnInnerFold_inv ops points k i _
      (fun j hj => knnCandidates_ne ops points k i j hj) st h)

end ServerA

/-- C6 (amended): every edge pair `(i, j)` stored by the k-nearest-neighbor
graph builder satisfies `i ≠ j`, and no unordered pair occurs more than once
in the edge list (the seen-key set deduplicates undirected pairs).  The
stored pair itself is `(outer index, neighbor index)` and need NOT satisfy
`i < j` — only the dedup key is canonicalized; see the counterexample. -/
theorem c6_knn_edges (ops : FloatOps) (points : List ServerA.VisualizationPoint) (k : ℕ) :
    (∀ e ∈ ServerA.findKNearestNeighbors ops points k, e.1 ≠ e.2) ∧
    (ServerA.findKNearestNeighbors ops points k).Pairwise
      (fun a b => ServerA.edgeKey a.1 a.2 ≠ ServerA.edgeKey b.1 b.2) := by
  have hinv : ServerA.KnnInv ⟨[], []⟩ := by
    unfold ServerA.KnnInv
    exact ⟨fun e he => absurd he (List.not_mem_nil e), List.Pairwise.nil,
      fun e he => absurd he (List.not_mem_nil e)⟩
  have h := ServerA.knnOuterFold_inv ops points k (List.range points.length) ⟨[], []⟩ hinv
  exact ⟨h.1, h.2.1⟩

/-- Counterexample for C6 as stated: on five collinear points at
`x = 0, 1, 3, 7, 15` (all pairwise distances distinct) with `k = 3`, the edge
connecting points `4` and `2` is first discovered while processing the outer
index `4` and is stored as `(4, 2)` — with the larger index first — so edges
are NOT stored canonically as `i < j`.  `sqrt` is interpreted as the identity
here, which yields the same comparisons (and hence the same edge list) as the
real square root since all squared distances are distinct and `sqrt` is
strictly monotone. -/
theorem c6_counterexample :
    (4, 2) ∈ ServerA.findKNearestNeighbors idSqrtOps
      [⟨0, 0, 0, 0, (0, 0, 0), 0, 0, 0, ServerA.Band.low, 0, 0, 0, 0⟩,
       ⟨1, 0, 0, 0, (0, 0, 0), 0, 0, 0, ServerA.Band.low, 0, 0, 0, 0⟩,
       ⟨3, 0, 0, 0, (0, 0, 0), 0, 0, 0, ServerA.Band.low, 0, 0, 0, 0⟩,
       ⟨7, 0, 0, 0, (0, 0, 0), 0, 0, 0, ServerA.Band.low, 0, 0, 0, 0⟩,
       ⟨15, 0, 0, 0, (0, 0, 0), 0, 0, 0, ServerA.Band.low, 0, 0, 0, 0⟩] 3 ∧
    ¬((4 : ℕ) < 2) := by
  constructor
  · norm_num [ServerA.findKNearestNeighbors, ServerA.knnCandidates, ServerA.knnDistances,
      ServerA.knnInsert, ServerA.edgeKey, stableSortBy, stableInsert, idSqrtOps, dummyOps,
      List.range_succ]
  · norm_num

/-! ### C4 — short-buffer handling of the analysis pipeline -/

/-- C4 (amended): past sample extraction, the analysis pipeline aborts with an
input error exactly on an *empty* sample buffer.  A nonempty buffer shorter
than one analysis frame (fewer than 2048 samples) does NOT abort: the frame
count `floor((n − 2048)/512)` is negative, so no frames are produced, every
downstream pass is a no-op, and the pipeline returns a successful result with
the correct duration and an empty verse list. -/
theorem c4_short_buffer (ops : FloatOps) (samples : List ℚ) (sr : ℚ) :
    (samples = [] →
      ServerA.analyzeSamples ops samples sr =
        Except.error "Could not extract audio samples from the file.") ∧
    (samples ≠ [] → samples.length < 2048 →
      ServerA.analyzeSamples ops samples sr =
        Except.ok ⟨(samples.length : ℚ) / sr, sr, []⟩) := by
  constructor
  · intro h
    subst h
    rfl
  · intro hne hlen
    have h0 : samples.length ≠ 0 := by
      simpa [List.length_eq_zero] using hne
    have htn : (ServerA.numFramesA samples.length).toNat = 0 := by
      unfold ServerA.numFramesA
      rw [Int.fdiv_eq_ediv _ (by norm_num)]
      omega
    have hframes : ServerA.rawFrames ops samples sr = [] := by
      unfold ServerA.rawFrames
      rw [htn]
      rfl
    simp [ServerA.analyzeSamples, h0, ServerA.extractAudioFrames, hframes,
      ServerA.applyTemporalSmoothing, ServerA.computeBandOnsets, ServerA.detectBeats,
      ServerA.segmentIntoVerses, ServerA.mapFramesToVisualization]

/-- Witness for C4: at the concrete inputs `[]` and `[1]` (sample rate 44100)
the two branches of the amended statement hold. -/
theorem c4_short_buffer_witness :
    (ServerA.analyzeSamples dummyOps [] 44100 =
        Except.error "Could not extract audio samples from the file.") ∧
    (ServerA.analyzeSamples dummyOps [1] 44100 =
        Except.ok ⟨((([1] : List ℚ).length : ℚ)) / 44100, 44100, []⟩) :=
  ⟨(c4_short_buffer dummyOps [] 44100).1 rfl,
   (c4_short_buffer dummyOps [1] 44100).2 (by simp) (by norm_num)⟩

/-- Counterexample for C4 as stated: a nonempty 100-sample buffer (shorter
than the 2048-sample frame) does not abort with an error — `analyzeAudioFile`
returns a successful result `{duration, sampleRate, verses := []}`. -/
theorem c4_counterexample :
    List.replicate 100 (1 : ℚ) ≠ [] ∧
    ServerA.analyzeSamples dummyOps (List.replicate 100 1) 44100 =
      Except.ok ⟨100 / 44100, 44100, []⟩ := by
  constructor
  · simp
  · have hgen : ∀ l : List ℚ, l.length = 100 →
        ServerA.analyzeSamples dummyOps l 44100 = Except.ok ⟨100 / 44100, 44100, []⟩ := by
      intro l hl
      have h0 : l.length ≠ 0 := by omega
      have htn : (ServerA.numFramesA l.length).toNat = 0 := by
        unfold ServerA.numFramesA
        rw [Int.fdiv_eq_ediv _ (by norm_num)]
        omega
      have hframes : ServerA.rawFrames dummyOps l 44100 = [] := by
        unfold ServerA.rawFrames
        rw [htn]
        rfl
      norm_num [ServerA.analyzeSamples, h0, ServerA.extractAudioFrames, hframes,
        ServerA.applyTemporalSmoothing, ServerA.computeBandOnsets, ServerA.detectBeats,
        ServerA.segmentIntoVerses, ServerA.mapFramesToVisualization, hl]
    exact hgen _ (by simp)
